import Mathlib

/-
Verification of the SMPT symbolic model checker (Petri nets + SMT portfolio).

This development shallowly embeds the parts of the code base that the
verified properties talk about:

* `smpt/ptnet.py`  : places, transitions, arc normalization
  (`Transition.normalize_flows`), and the semantics of the SMT-LIB
  transition relation emitted by `Transition.smtlib` /
  `PetriNet.smtlib_transition_relation`.
* `smpt/ptio/formula.py` : the formula AST (boolean constants, state
  formulas over not/and/or, atoms over token counts and integer
  constants), with `eval`, `dnf` and `negation`, and the `deadlock`
  generator.
* `ic3.py`   : the control flow of `IC3.inductively_generalize` and the
  frame (`oars`) protocol of the IC3 main loop.
* `smpt/kinduction.py` : the k-induction prover loop and its
  announcement of the inductive bound.
* the BMC bound rendezvous (modelled from the spec, see below).

Dictionaries of the Python code are embedded as association lists
(`List (Nat × Int)`), places are identified by natural numbers, machine
integers by `Int` (Python integers are unbounded), and functions that can
raise are embedded with `Option`.  External SMT solver answers are oracle
parameters (`Nat → Bool`).
-/

namespace SMPT

/-! ### Association list helpers (Python `dict` as a partial map) -/

/-- Lookup in an association list, mirroring a Python `dict` access:
`some w` when the key is present, `none` otherwise. -/
def alookup : List (Nat × Int) → Nat → Option Int
  | [], _ => none
  | (q, w) :: rest, p => if q = p then some w else alookup rest p

/-- Key set of an association list (`dict.keys()`). -/
def keysOf (l : List (Nat × Int)) : List Nat :=
  l.map Prod.fst

/-- Lookup with default 0 (`dict.get(p, 0)`), used to state arithmetic
facts where absent entries count as 0. -/
def optD (o : Option Int) : Int :=
  o.getD 0

theorem alookup_eq_none_of_not_mem_keys {l : List (Nat × Int)} {p : Nat}
    (h : p ∉ keysOf l) : alookup l p = none := by
  induction l with
  | nil => rfl
  | cons x rest ih =>
      simp only [keysOf, List.map_cons, List.mem_cons] at h
      push_neg at h
      simp only [alookup]
      rw [if_neg (fun hx => h.1 hx.symm)]
      exact ih (by simpa [keysOf] using h.2)

theorem alookup_some_mem {l : List (Nat × Int)} {p : Nat} {w : Int}
    (h : alookup l p = some w) : (p, w) ∈ l := by
  induction l with
  | nil => simp [alookup] at h
  | cons x rest ih =>
      simp only [alookup] at h
      by_cases hx : x.1 = p
      · rw [if_pos hx] at h
        have hx2 : x.2 = w := by injection h
        have : x = (p, w) := Prod.ext hx hx2
        rw [← this]
        exact List.mem_cons_self x rest
      · rw [if_neg hx] at h
        exact List.mem_cons_of_mem _ (ih h)

theorem alookup_of_mem {l : List (Nat × Int)} {p : Nat} {w : Int}
    (hnd : (keysOf l).Nodup) (h : (p, w) ∈ l) : alookup l p = some w := by
  induction l with
  | nil => simp at h
  | cons x rest ih =>
      simp only [keysOf, List.map_cons, List.nodup_cons] at hnd
      rcases List.mem_cons.mp h with h1 | h1
      · subst h1
        simp [alookup]
      · have hxp : x.1 ≠ p := by
          intro hx
          exact hnd.1 (hx ▸ (List.mem_map.mpr ⟨(p, w), h1, rfl⟩))
        simp only [alookup, if_neg hxp]
        exact ih hnd.2 h1

theorem isSome_alookup_of_mem_keys {l : List (Nat × Int)} {p : Nat}
    (h : p ∈ keysOf l) : (alookup l p).isSome := by
  induction l with
  | nil => simp [keysOf] at h
  | cons x rest ih =>
      simp only [keysOf, List.map_cons, List.mem_cons] at h
      by_cases hx : x.1 = p
      · simp [alookup, hx]
      · simp only [alookup, if_neg hx]
        exact ih (by
          rcases h with h | h
          · exact absurd h.symm hx
          · simpa [keysOf] using h)

/-! ### Arc normalization (`Transition.normalize_flows`, smpt/ptnet.py)

`normalize_flows` iterates over the places appearing in `pre` or `post`
and fills `tests`, `inputs`, `outputs`, `delta` for each such place
independently.  `normalizeFlowsEntry` is the loop body, as a function of
the `pre` and `post` entries of one place (`none` = key absent). -/

/-- The four map entries produced for one place by `normalize_flows`. -/
structure FlowEntry where
  tests : Option Int
  inputs : Option Int
  outputs : Option Int
  delta : Option Int
  deriving DecidableEq, Repr

/-- Loop body of `Transition.normalize_flows` for one place:
* both arcs present and equal: only a test entry;
* both present, `pre > post`: test `post`, input `pre - post`,
  delta `-(pre - post)`;
* both present, `post > pre`: test `pre`, output `post - pre`,
  delta `post - pre`;
* only `pre`: input `pre`, delta `-pre`;
* only `post`: output `post`, delta `post`. -/
def normalizeFlowsEntry : Option Int → Option Int → FlowEntry
  | some a, some b =>
      if a = b then ⟨some a, none, none, none⟩
      else if b < a then ⟨some b, some (a - b), none, some (-(a - b))⟩
      else ⟨some a, none, some (b - a), some (b - a)⟩
  | some a, none => ⟨none, some a, none, some (-a)⟩
  | none, some b => ⟨none, none, some b, some b⟩
  | none, none => ⟨none, none, none, none⟩

/-- A transition of the net model (`Transition`, smpt/ptnet.py): the raw
arc maps `pre`/`post`, the normalized maps `inputs`/`outputs`/`tests`/
`delta`, and the list of connected places. -/
structure Transition where
  pre : List (Nat × Int)
  post : List (Nat × Int)
  inputs : List (Nat × Int)
  outputs : List (Nat × Int)
  tests : List (Nat × Int)
  delta : List (Nat × Int)
  connected : List Nat
  deriving DecidableEq, Repr

/-- The normalized entries of a transition at one place. -/
def Transition.entryAt (t : Transition) (p : Nat) : FlowEntry :=
  ⟨alookup t.tests p, alookup t.inputs p, alookup t.outputs p, alookup t.delta p⟩

/-- Finite support of a transition: every key of any of its maps and
every connected place. -/
def Transition.support (t : Transition) : List Nat :=
  keysOf t.pre ++ keysOf t.post ++ keysOf t.inputs ++ keysOf t.outputs ++
    keysOf t.tests ++ keysOf t.delta ++ t.connected

/-- A transition is normalized when its `inputs`/`outputs`/`tests`/`delta`
maps are exactly what `normalize_flows` computes from `pre`/`post`, and
`connected_places` contains precisely the places with a `pre` or `post`
arc (as collected by `PetriNet.parse_transition`). -/
def Transition.Normalized (t : Transition) : Prop :=
  ∀ p ∈ t.support,
    t.entryAt p = normalizeFlowsEntry (alookup t.pre p) (alookup t.post p) ∧
    (p ∈ t.connected ↔ ((alookup t.pre p).isSome ∨ (alookup t.post p).isSome))

instance (t : Transition) : Decidable t.Normalized := by
  unfold Transition.Normalized
  infer_instance

/-- Well-formedness inherited from the Python data model: the maps are
dictionaries (no duplicate keys) and `post` weights are positive (the
`.net` parser only produces positive output-arc weights; only `pre` can
carry a negative, inhibitor, weight). -/
def Transition.WF (t : Transition) : Prop :=
  (keysOf t.pre).Nodup ∧ (keysOf t.post).Nodup ∧ (keysOf t.inputs).Nodup ∧
    (keysOf t.outputs).Nodup ∧ (keysOf t.tests).Nodup ∧
    ∀ pw ∈ t.post, 0 < pw.2

instance (t : Transition) : Decidable t.WF := by
  unfold Transition.WF
  infer_instance

theorem entry_off_support (t : Transition) (p : Nat) (hp : p ∉ t.support) :
    t.entryAt p = normalizeFlowsEntry (alookup t.pre p) (alookup t.post p) ∧
    (p ∈ t.connected ↔ ((alookup t.pre p).isSome ∨ (alookup t.post p).isSome)) := by
  simp only [Transition.support, List.append_assoc, List.mem_append, not_or] at hp
  obtain ⟨h1, h2, h3, h4, h5, h6, h7⟩ := hp
  have e1 := alookup_eq_none_of_not_mem_keys h1
  have e2 := alookup_eq_none_of_not_mem_keys h2
  have e3 := alookup_eq_none_of_not_mem_keys h3
  have e4 := alookup_eq_none_of_not_mem_keys h4
  have e5 := alookup_eq_none_of_not_mem_keys h5
  have e6 := alookup_eq_none_of_not_mem_keys h6
  constructor
  · simp [Transition.entryAt, e1, e2, e3, e4, e5, e6, normalizeFlowsEntry]
  · simp [e1, e2, h7]

/-- `Normalized` pins down the entries at every place, not only on the
support. -/
theorem normalized_all {t : Transition} (h : t.Normalized) (p : Nat) :
    t.entryAt p = normalizeFlowsEntry (alookup t.pre p) (alookup t.post p) ∧
    (p ∈ t.connected ↔ ((alookup t.pre p).isSome ∨ (alookup t.post p).isSome)) := by
  by_cases hp : p ∈ t.support
  · exact h p hp
  · exact entry_off_support t p hp

theorem normalizeFlowsEntry_spec (preo posto : Option Int) :
    optD (normalizeFlowsEntry preo posto).inputs -
        optD (normalizeFlowsEntry preo posto).outputs =
      -optD (normalizeFlowsEntry preo posto).delta ∧
    (∀ a b, preo = some a → posto = some b → 0 < a → 0 < b →
      (normalizeFlowsEntry preo posto).tests = some (min a b) ∧
      |optD (normalizeFlowsEntry preo posto).delta| = |a - b| ∧
      optD (normalizeFlowsEntry preo posto).inputs = max 0 (a - b) ∧
      optD (normalizeFlowsEntry preo posto).outputs = max 0 (b - a)) ∧
    (∀ a, preo = some a → posto = none →
      (normalizeFlowsEntry preo posto).inputs = some a ∧
      (normalizeFlowsEntry preo posto).outputs = none ∧
      (normalizeFlowsEntry preo posto).delta = some (-a)) ∧
    (∀ b, posto = some b → preo = none →
      (normalizeFlowsEntry preo posto).outputs = some b ∧
      (normalizeFlowsEntry preo posto).inputs = none ∧
      (normalizeFlowsEntry preo posto).delta = some b) := by
  rcases preo with _ | a <;> rcases posto with _ | b
  · simp [normalizeFlowsEntry, optD]
  · simp [normalizeFlowsEntry, optD]
  · simp [normalizeFlowsEntry, optD]
  · by_cases h1 : a = b
    · subst h1
      simp only [normalizeFlowsEntry, if_pos rfl]
      refine ⟨by simp [optD], ?_, by simp, by simp⟩
      rintro x y hx hy hx0 hy0
      injection hx with hx
      injection hy with hy
      subst hx
      subst hy
      exact ⟨by simp, by simp [optD], by simp [optD], by simp [optD]⟩
    · by_cases h2 : b < a
      · simp only [normalizeFlowsEntry, if_neg h1, if_pos h2]
        refine ⟨by simp [optD], ?_, by simp, by simp⟩
        rintro x y hx hy hx0 hy0
        injection hx with hx
        injection hy with hy
        subst hx
        subst hy
        refine ⟨by rw [min_eq_right h2.le], ?_, ?_, ?_⟩
        · simp only [optD, Option.getD_some]
          rw [abs_neg]
        · simp only [optD, Option.getD_some]
          omega
        · simp only [optD, Option.getD_none]
          omega
      · have h2' : a < b := by omega
        simp only [normalizeFlowsEntry, if_neg h1, if_neg h2]
        refine ⟨by simp [optD], ?_, by simp, by simp⟩
        rintro x y hx hy hx0 hy0
        injection hx with hx
        injection hy with hy
        subst hx
        subst hy
        refine ⟨by rw [min_eq_left h2'.le], ?_, ?_, ?_⟩
        · simp only [optD, Option.getD_some]
          rw [abs_sub_comm]
        · simp only [optD, Option.getD_none]
          omega
        · simp only [optD, Option.getD_some]
          omega

/-- C5 (amended): after `normalize_flows`, for every place
`inputs − outputs = −delta` (absent entries count 0); when both arcs are
positive, `tests = min`, `|delta| = |pre − post|`,
`inputs = max 0 (pre − post)`, `outputs = max 0 (post − pre)`; and when
the place is present in exactly one of `pre`/`post`, that map's weight is
carried by `inputs` resp. `outputs`, with `delta` its signed counterpart.
(The original claim's "otherwise" clause fails when a place carries both
an inhibitor `pre` arc and a `post` arc, see the counterexample.) -/
theorem claim_C5_normalize_flows (t : Transition) (h : t.Normalized) (p : Nat) :
    optD (alookup t.inputs p) - optD (alookup t.outputs p) =
      -optD (alookup t.delta p) ∧
    (∀ a b, alookup t.pre p = some a → alookup t.post p = some b → 0 < a → 0 < b →
      alookup t.tests p = some (min a b) ∧
      |optD (alookup t.delta p)| = |a - b| ∧
      optD (alookup t.inputs p) = max 0 (a - b) ∧
      optD (alookup t.outputs p) = max 0 (b - a)) ∧
    (∀ a, alookup t.pre p = some a → alookup t.post p = none →
      alookup t.inputs p = some a ∧ alookup t.outputs p = none ∧
      alookup t.delta p = some (-a)) ∧
    (∀ b, alookup t.post p = some b → alookup t.pre p = none →
      alookup t.outputs p = some b ∧ alookup t.inputs p = none ∧
      alookup t.delta p = some b) := by
  obtain ⟨he, -⟩ := normalized_all h p
  have h1 : alookup t.tests p = (t.entryAt p).tests := rfl
  have h2 : alookup t.inputs p = (t.entryAt p).inputs := rfl
  have h3 : alookup t.outputs p = (t.entryAt p).outputs := rfl
  have h4 : alookup t.delta p = (t.entryAt p).delta := rfl
  rw [h1, h2, h3, h4, he]
  exact normalizeFlowsEntry_spec (alookup t.pre p) (alookup t.post p)

/-- A transition obtained by normalizing `tr t p*2 q -> p s*3`
(pre p 2, pre q 1, post p 1, post s 3). -/
def exC5t : Transition :=
  ⟨[(0, 2), (1, 1)], [(0, 1), (2, 3)], [(0, 1), (1, 1)], [(2, 3)],
   [(0, 1)], [(0, -1), (1, -1), (2, 3)], [0, 1, 2]⟩

theorem claim_C5_witness :
    Transition.Normalized exC5t ∧
    (optD (alookup exC5t.inputs 0) - optD (alookup exC5t.outputs 0) =
        -optD (alookup exC5t.delta 0) ∧
      alookup exC5t.tests 0 = some (min 2 1) ∧
      optD (alookup exC5t.inputs 0) = max 0 (2 - 1) ∧
      alookup exC5t.inputs 1 = some 1 ∧ alookup exC5t.outputs 1 = none ∧
      alookup exC5t.delta 1 = some (-1)) := by
  have hn : Transition.Normalized exC5t := by decide
  have h := claim_C5_normalize_flows exC5t hn
  refine ⟨hn, (h 0).1, ?_, ?_, ?_, ?_, ?_⟩
  · exact ((h 0).2.1 2 1 (by decide) (by decide) (by decide) (by decide)).1
  · exact ((h 0).2.1 2 1 (by decide) (by decide) (by decide) (by decide)).2.2.1
  · exact ((h 1).2.2.1 1 (by decide) (by decide)).1
  · exact ((h 1).2.2.1 1 (by decide) (by decide)).2.1
  · exact ((h 1).2.2.1 1 (by decide) (by decide)).2.2

/-- A transition obtained by normalizing `tr t p?-1 -> p`
(inhibitor pre p −1, post p 1): `normalize_flows` lands in the
`post > pre` branch and produces `outputs p = 2`, `delta p = 2`,
`tests p = −1`. -/
def exC5bad : Transition :=
  ⟨[(0, -1)], [(0, 1)], [], [(0, 2)], [(0, -1)], [(0, 2)], [0]⟩

/-- C5 counterexample: for `pre p = −1`, `post p = 1` (an inhibitor arc
plus an output arc on the same place), the "otherwise" clause of the
claim fails: neither does `inputs` carry the pre weight with
`delta = 1`, nor does `outputs` carry the post weight 1 — the code
stores `outputs p = 2` and `delta p = 2`. -/
theorem claim_C5_counterexample :
    Transition.Normalized exC5bad ∧ Transition.WF exC5bad ∧
    alookup exC5bad.pre 0 = some (-1) ∧ alookup exC5bad.post 0 = some 1 ∧
    ¬(0 < optD (alookup exC5bad.pre 0) ∧ 0 < optD (alookup exC5bad.post 0)) ∧
    ¬((alookup exC5bad.inputs 0 = some (-1) ∧ alookup exC5bad.outputs 0 = none ∧
        alookup exC5bad.delta 0 = some 1) ∨
      (alookup exC5bad.outputs 0 = some 1 ∧ alookup exC5bad.inputs 0 = none ∧
        alookup exC5bad.delta 0 = some 1)) := by
  decide

/-! ### C9: disjointness of the normalized `inputs` and `outputs` maps -/

/-- Guard of the combined-update branch in the input-place update loop of
`Transition.smtlib`: an input entry with positive weight whose place is
also in `outputs` (`if pl in self.outputs`). -/
def Transition.usesCombinedUpdate (t : Transition) (p : Nat) : Prop :=
  ∃ w, alookup t.inputs p = some w ∧ 0 < w ∧ (alookup t.outputs p).isSome

theorem normalizeFlowsEntry_disjoint (preo posto : Option Int) :
    (normalizeFlowsEntry preo posto).inputs = none ∨
      (normalizeFlowsEntry preo posto).outputs = none := by
  rcases preo with _ | a <;> rcases posto with _ | b
  · exact Or.inl rfl
  · exact Or.inl rfl
  · exact Or.inr rfl
  · simp only [normalizeFlowsEntry]
    split_ifs <;> simp

/-- C9: after `normalize_flows` the key sets of `inputs` and `outputs`
are disjoint for every place, so the update branch of `Transition.smtlib`
for a place present in both `inputs` and `outputs` is never taken on a
normalized transition. -/
theorem normalized_lookup_disjoint {t : Transition} (h : t.Normalized) (p : Nat) :
    alookup t.inputs p = none ∨ alookup t.outputs p = none := by
  obtain ⟨he, -⟩ := normalized_all h p
  have h2 : alookup t.inputs p = (t.entryAt p).inputs := rfl
  have h3 : alookup t.outputs p = (t.entryAt p).outputs := rfl
  rw [h2, h3, he]
  exact normalizeFlowsEntry_disjoint (alookup t.pre p) (alookup t.post p)

/-- C9: after `normalize_flows` the key sets of `inputs` and `outputs`
are disjoint for every place, so the update branch of `Transition.smtlib`
for a place present in both `inputs` and `outputs` is never taken on a
normalized transition. -/
theorem claim_C9_inputs_outputs_disjoint (t : Transition) (h : t.Normalized)
    (p : Nat) :
    ¬((alookup t.inputs p).isSome ∧ (alookup t.outputs p).isSome) ∧
    ¬t.usesCombinedUpdate p := by
  rcases normalized_lookup_disjoint h p with hd | hd
  · constructor
    · rintro ⟨h1, -⟩
      rw [hd] at h1
      simp at h1
    · rintro ⟨w, h1, -, -⟩
      rw [hd] at h1
      simp at h1
  · constructor
    · rintro ⟨-, h2⟩
      rw [hd] at h2
      simp at h2
    · rintro ⟨w, -, -, h2⟩
      rw [hd] at h2
      simp at h2

/-- A transition obtained by normalizing `tr t p -> q`. -/
def exC9t : Transition :=
  ⟨[(0, 1)], [(1, 1)], [(0, 1)], [(1, 1)], [], [(0, -1), (1, 1)], [0, 1]⟩

theorem claim_C9_witness :
    Transition.Normalized exC9t ∧
    (¬((alookup exC9t.inputs 0).isSome ∧ (alookup exC9t.outputs 0).isSome) ∧
      ¬exC9t.usesCombinedUpdate 0) := by
  have hn : Transition.Normalized exC9t := by decide
  exact ⟨hn, claim_C9_inputs_outputs_disjoint exC9t hn 0⟩

/-! ### C2: `IC3.inductively_generalize` (ic3.py)

The SMT queries of `IC3.state_reachable(i, s)` are embedded as an oracle
`reach : Nat → Bool` (the frames and the state `s` are fixed during one
call, so the query result is a function of the frame index `i`).  The
call `generate_clause(s, i, k)` is recorded in the result. -/

/-- Outcome of `inductively_generalize`: either the `Counterexample`
exception, or the returned level together with the `(i, k)` arguments of
the single `generate_clause` call performed. -/
inductive IGResult where
  | cex : IGResult
  | ret (level : Nat) (generateClauseArgs : Nat × Nat) : IGResult
  deriving DecidableEq, Repr

/-- The `for i in range(lo, k + 1)` loop body of
`inductively_generalize`: on the first `i` with `state_reachable(i, s)`,
call `generate_clause(s, i - 1, k)` and return `i - 1`; if the loop
falls through, call `generate_clause(s, k, k)` and return `k`. -/
def igScan (reach : Nat → Bool) (k : Nat) : List Nat → IGResult
  | [] => .ret k (k, k)
  | i :: rest => if reach i then .ret (i - 1) (i - 1, k) else igScan reach k rest

/-- Lower bound `max(1, minimum + 1)` of the loop range. -/
def igLo (minimum : Int) : Nat :=
  (max 1 (minimum + 1)).toNat

/-- `IC3.inductively_generalize(s, minimum, k)`: raise `Counterexample`
when `minimum < 0` and `s` is reachable from `F0`; otherwise scan
`i = max(1, minimum+1) .. k` for the first frame whose query is sat. -/
def inductivelyGeneralize (reach : Nat → Bool) (minimum : Int) (k : Nat) :
    IGResult :=
  if minimum < 0 ∧ reach 0 = true then .cex
  else igScan reach k (List.range' (igLo minimum) (k + 1 - igLo minimum))

theorem igScan_found (reach : Nat → Bool) (k : Nat) :
    ∀ len start i0, start ≤ i0 → i0 < start + len → reach i0 = true →
      (∀ j, start ≤ j → j < i0 → reach j = false) →
      igScan reach k (List.range' start len) = .ret (i0 - 1) (i0 - 1, k) := by
  intro len
  induction len with
  | zero => omega
  | succ n ih =>
      intro start i0 h1 h2 h3 h4
      rw [List.range'_succ]
      by_cases hs : reach start = true
      · have : i0 = start := by
          by_contra hne
          have : start < i0 := by omega
          rw [h4 start le_rfl this] at hs
          exact Bool.noConfusion hs
        subst this
        simp [igScan, hs]
      · simp only [igScan, Bool.not_eq_true] at hs ⊢
        rw [hs]
        simp only [if_neg Bool.false_ne_true]
        have hne : i0 ≠ start := fun h => hs.symm.trans (h ▸ h3) |> Bool.noConfusion
        exact ih (start + 1) i0 (by omega) (by omega) h3
          (fun j hj1 hj2 => h4 j (by omega) hj2)

theorem igScan_not_found (reach : Nat → Bool) (k : Nat) :
    ∀ len start, (∀ j, start ≤ j → j < start + len → reach j = false) →
      igScan reach k (List.range' start len) = .ret k (k, k) := by
  intro len
  induction len with
  | zero => intro start _; rfl
  | succ n ih =>
      intro start h
      rw [List.range'_succ]
      simp only [igScan]
      rw [h start le_rfl (by omega)]
      simp only [if_neg Bool.false_ne_true]
      exact ih (start + 1) (fun j hj1 hj2 => h j (by omega) (by omega))

/-- C2 (amended): `inductively_generalize(s, min, k)` raises
`Counterexample` when `min < 0` and `s` is reachable in one step from
`F0`; otherwise it finds the **smallest** `i` in `[max(1, min+1), k]`
such that `s` is reachable from `Fi`, calls `generate_clause(s, i-1, k)`
and returns `i-1`; and if no `i` in that interval has `s` reachable from
`Fi`, it calls `generate_clause(s, k, k)` and returns `k`.  (The original
claim says "largest"; the loop is ascending and stops at the first hit.) -/
theorem claim_C2_inductively_generalize (reach : Nat → Bool) (minimum : Int)
    (k : Nat) :
    (minimum < 0 ∧ reach 0 = true →
      inductivelyGeneralize reach minimum k = .cex) ∧
    (¬(minimum < 0 ∧ reach 0 = true) →
      (∀ i0, igLo minimum ≤ i0 → i0 ≤ k → reach i0 = true →
        (∀ j, igLo minimum ≤ j → j < i0 → reach j = false) →
        inductivelyGeneralize reach minimum k = .ret (i0 - 1) (i0 - 1, k)) ∧
      ((∀ j, igLo minimum ≤ j → j ≤ k → reach j = false) →
        inductivelyGeneralize reach minimum k = .ret k (k, k))) := by
  constructor
  · intro h
    unfold inductivelyGeneralize
    rw [if_pos h]
  · intro h
    constructor
    · intro i0 h1 h2 h3 h4
      unfold inductivelyGeneralize
      rw [if_neg h]
      exact igScan_found reach k _ _ i0 h1 (by omega) h3 h4
    · intro hall
      unfold inductivelyGeneralize
      rw [if_neg h]
      exact igScan_not_found reach k _ _ (fun j hj1 hj2 => hall j hj1 (by omega))

/-- C2 counterexample: with `state_reachable(i, s)` answering sat for
every frame `i ≥ 1`, `min = 0` and `k = 2`: the largest sat index in
`[max(1, 0+1), 2] = [1, 2]` is `2`, so the claim predicts
`generate_clause(s, 1, 2)` and return value `1`; the code stops at the
smallest sat index `1`, calls `generate_clause(s, 0, 2)` and returns
`0`. -/
theorem claim_C2_counterexample :
    (fun i => decide (1 ≤ i)) 2 = true ∧ igLo 0 ≤ 2 ∧
    inductivelyGeneralize (fun i => decide (1 ≤ i)) 0 2 = .ret 0 (0, 2) ∧
    inductivelyGeneralize (fun i => decide (1 ≤ i)) 0 2 ≠ .ret 1 (1, 2) := by
  decide

theorem claim_C2_witness :
    ¬((0 : Int) < 0 ∧ (fun i => decide (i = 2)) 0 = true) ∧
    inductivelyGeneralize (fun i => decide (i = 2)) 0 3 = .ret 1 (1, 3) := by
  have h := (claim_C2_inductively_generalize (fun i => decide (i = 2)) 0 3).2
    (by decide)
  exact ⟨by decide, h.1 2 (by decide) (by decide) (by decide)
    (by decide)⟩

/-! ### Formula AST (smpt/ptio/formula.py)

The fragment of the expression AST covered by the claims: boolean
constants, state formulas over `not`/`and`/`or`, and atoms whose operands
are token counts or integer constants.  A `TokenCount` carries its list
of places and its integer offset `delta`; the `saturated_delta` list is
omitted: it is empty in every operation verified here (`dnf` and
`negation` are called without saturation arguments, `eval` ignores it,
and Python `TokenCount.__eq__` compares only `places` and `delta`).
The `monotonic`/`anti_monotonic` bits set by `Atom.dnf` are metadata
ignored by `eval` and by `Atom.__eq__` and are likewise omitted. -/

/-- Comparison operators of an `Atom`. -/
inductive CompOp where
  | eq | le | ge | lt | gt | distinct
  deriving DecidableEq, Repr

/-- Boolean operators of a `StateFormula`. -/
inductive BoolOp where
  | not | and | or
  deriving DecidableEq, Repr

/-- `TokenCount` / `IntegerConstant` (the `SimpleExpression` leaves). -/
inductive SimpleExpr where
  | tokenCount (places : List Nat) (delta : Int)
  | intConst (value : Int)
  deriving DecidableEq, Repr

/-- `BooleanConstant` / `Atom` / `StateFormula`. -/
inductive Expr where
  | boolConst (value : Bool)
  | atom (left : SimpleExpr) (op : CompOp) (right : SimpleExpr)
  | state (op : BoolOp) (operands : List Expr)

/-- `NEGATION_COMPARISON_OPERATORS`. -/
def negComp : CompOp → CompOp
  | .eq => .distinct
  | .le => .gt
  | .ge => .lt
  | .lt => .ge
  | .gt => .le
  | .distinct => .eq

/-- `COMMUTATION_COMPARISON_OPERATORS`. -/
def commComp : CompOp → CompOp
  | .eq => .eq
  | .le => .ge
  | .ge => .le
  | .lt => .gt
  | .gt => .lt
  | .distinct => .distinct

/-- `NEGATION_BOOLEAN_OPERATORS` (defined only on `and`/`or`; looking up
`not` raises `KeyError`). -/
def negBool : BoolOp → Option BoolOp
  | .and => some .or
  | .or => some .and
  | .not => none

def SimpleExpr.isTokenCount : SimpleExpr → Bool
  | .tokenCount _ _ => true
  | .intConst _ => false

def SimpleExpr.isIntConst : SimpleExpr → Bool
  | .tokenCount _ _ => false
  | .intConst _ => true

/-- `TokenCount.eval` / `IntegerConstant.eval` at a marking `m`. -/
def SimpleExpr.eval (m : Nat → Int) : SimpleExpr → Int
  | .tokenCount places delta => (places.map m).sum + delta
  | .intConst v => v

/-- `TRANSLATION_COMPARISON_OPERATORS`. -/
def compEval (op : CompOp) (x y : Int) : Bool :=
  match op with
  | .eq => decide (x = y)
  | .le => decide (x ≤ y)
  | .ge => decide (y ≤ x)
  | .lt => decide (x < y)
  | .gt => decide (y < x)
  | .distinct => decide (x ≠ y)

mutual

/-- `eval` of an expression at a marking (`StateFormula.eval`,
`Atom.eval`, `BooleanConstant.eval`): `not` evaluates its first operand,
`and`/`or` evaluate all/any. -/
def Expr.eval (m : Nat → Int) : Expr → Bool
  | .boolConst b => b
  | .atom l op r => compEval op (l.eval m) (r.eval m)
  | .state .not (o :: _) => !(Expr.eval m o)
  | .state .not [] => false
  | .state .and ops => evalAll m ops
  | .state .or ops => evalAny m ops

def evalAll (m : Nat → Int) : List Expr → Bool
  | [] => true
  | e :: es => Expr.eval m e && evalAll m es

def evalAny (m : Nat → Int) : List Expr → Bool
  | [] => false
  | e :: es => Expr.eval m e || evalAny m es

end

mutual

/-- Well-formedness of the claim grammar: a `not` state formula has a
first operand (Python's `operands[0]` would raise otherwise). -/
def Expr.wf : Expr → Bool
  | .boolConst _ => true
  | .atom _ _ _ => true
  | .state .not (o :: _) => Expr.wf o
  | .state .not [] => false
  | .state .and ops => wfAll ops
  | .state .or ops => wfAll ops

def wfAll : List Expr → Bool
  | [] => true
  | e :: es => Expr.wf e && wfAll es

end

mutual

/-- No `not` state formula anywhere. -/
def notFree : Expr → Bool
  | .boolConst _ => true
  | .atom _ _ _ => true
  | .state .not _ => false
  | .state .and ops => notFreeAll ops
  | .state .or ops => notFreeAll ops

def notFreeAll : List Expr → Bool
  | [] => true
  | e :: es => notFree e && notFreeAll es

end

mutual

/-- Every atom in the expression has been normalized: no atom has an
`IntegerConstant` left operand together with a `TokenCount` right
operand. -/
def atomsNorm : Expr → Bool
  | .boolConst _ => true
  | .atom l _ r => !(l.isIntConst && r.isTokenCount)
  | .state _ ops => atomsNormAll ops

def atomsNormAll : List Expr → Bool
  | [] => true
  | e :: es => atomsNorm e && atomsNormAll es

end

mutual

/-- Size measure for induction. -/
def sizeE : Expr → Nat
  | .boolConst _ => 1
  | .atom _ _ _ => 1
  | .state _ ops => 1 + sizeL ops

def sizeL : List Expr → Nat
  | [] => 0
  | e :: es => sizeE e + sizeL es

end

mutual

/-- `negation` of an expression (`BooleanConstant.negation`,
`Atom.negation`, `StateFormula.negation`).  `Atom.negation` copies its
operands through `generalize(None, None)`, which returns an equal
operand, and negates the comparison operator; `StateFormula.negation`
maps the operator through `NEGATION_BOOLEAN_OPERATORS`, raising
`KeyError` (here: `none`) on a `not` formula. -/
def Expr.negation : Expr → Option Expr
  | .boolConst b => some (.boolConst !b)
  | .atom l op r => some (.atom l (negComp op) r)
  | .state op ops =>
      match negBool op with
      | none => none
      | some op' =>
          match negList ops with
          | none => none
          | some rs => some (.state op' rs)

def negList : List Expr → Option (List Expr)
  | [] => some []
  | e :: es =>
      match Expr.negation e with
      | none => none
      | some r =>
          match negList es with
          | none => none
          | some rs => some (r :: rs)

end

/-! ### C3: DNF (`StateFormula.dnf`, `Atom.dnf`, `BooleanConstant.dnf`)

`dnf` in the source recurses both structurally and on freshly built
formulas (the negation-propagation cases rebuild a dual formula and run
`dnf` on it), so the embedding carries an explicit fuel; the
normalization theorem shows `sizeE e + 4` fuel always suffices. -/

/-- Cartesian product `itertools.product(*operands)` (first factor varies
slowest). -/
def listProd : List (List Expr) → List (List Expr)
  | [] => [[]]
  | l :: ls => l.flatMap (fun x => (listProd ls).map (fun c => x :: c))

/-- The operand list extracted from one `dnf`-ed conjunct:
`operand_dnf.operands` when it is a `StateFormula`, else the singleton. -/
def cubesOfSF : Expr → List Expr
  | .state _ ops => ops
  | e => [e]

/-- Flattening of one cube of a combination: an `and` state formula is
spliced (`combination_factorized += cube.operands`), anything else is
appended. -/
def flattenCube : Expr → List Expr
  | .state .and ops => ops
  | e => [e]

mutual

/-- `dnf(negation_propagation)` with fuel.  Mirrors
`StateFormula.dnf` / `Atom.dnf` / `BooleanConstant.dnf`:
* `BooleanConstant`: itself, negated under propagation;
* `Atom` under propagation: negate the operator and re-run `dnf`;
* `Atom` otherwise: commute when the left operand is an
  `IntegerConstant` and the right a `TokenCount`, else return it;
* `not`: run `dnf` on the first operand, flipping propagation;
* `and` under propagation: `dnf` of the `or` of the propagated operands;
* `and` otherwise: Cartesian product of the operand cube lists, each
  combination flattened into one `and` clause, wrapped in an `or`;
* `or` under propagation: `dnf` of the `and` of the propagated operands;
* `or` otherwise: concatenation of the operand cube lists under one
  `or`. -/
def dnfRec : Nat → Bool → Expr → Option Expr
  | 0, _, _ => none
  | fuel + 1, negProp, e =>
    match e with
    | .boolConst b => some (.boolConst (if negProp then !b else b))
    | .atom l op r =>
        if negProp then dnfRec fuel false (.atom l (negComp op) r)
        else if l.isIntConst && r.isTokenCount then
          dnfRec fuel false (.atom r (commComp op) l)
        else some (.atom l op r)
    | .state .not [] => none
    | .state .not (o :: _) =>
        if negProp then dnfRec fuel false o else dnfRec fuel true o
    | .state .and ops =>
        if negProp then
          match dnfList fuel true ops with
          | none => none
          | some rs => dnfRec fuel false (.state .or rs)
        else
          match dnfList fuel false ops with
          | none => none
          | some rs =>
              some (.state .or ((listProd (rs.map cubesOfSF)).map
                (fun combo => .state .and (combo.flatMap flattenCube))))
    | .state .or ops =>
        if negProp then
          match dnfList fuel true ops with
          | none => none
          | some rs => dnfRec fuel false (.state .and rs)
        else
          match dnfList fuel false ops with
          | none => none
          | some rs => some (.state .or (rs.flatMap cubesOfSF))
termination_by fuel _ _ => (fuel, 0)

/-- `[operand.dnf(negation_propagation) for operand in operands]`. -/
def dnfList : Nat → Bool → List Expr → Option (List Expr)
  | _, _, [] => some []
  | fuel, b, e :: es =>
      match dnfRec fuel b e with
      | none => none
      | some r =>
          match dnfList fuel b es with
          | none => none
          | some rs => some (r :: rs)
termination_by fuel _ l => (fuel, l.length + 1)

end

/-- `dnf` entry point (`negation_propagation = False`) with the fuel
shown sufficient by `claim_C3_dnf`. -/
def Expr.dnf (e : Expr) : Option Expr :=
  dnfRec (sizeE e + 4) false e

/-- Literal: an atom or a boolean constant. -/
def isLit : Expr → Bool
  | .atom _ _ _ => true
  | .boolConst _ => true
  | _ => false

/-- Cube: a literal or an `and` of literals. -/
def isCube (c : Expr) : Bool :=
  isLit c ||
    (match c with
     | .state .and ops => ops.all isLit
     | _ => false)

/-- DNF shape as stated by the claim: an atom (or boolean constant), an
`and` of literals, or an `or` whose operands are cubes. -/
def isDNF (r : Expr) : Bool :=
  isLit r ||
    (match r with
     | .state .and ops => ops.all isLit
     | .state .or cs => cs.all isCube
     | _ => false)

/-- Shape invariant of `dnf` results: a literal or an `or` of cubes (the
code never returns a bare `and`). -/
def isDNFOr (r : Expr) : Bool :=
  isLit r ||
    (match r with
     | .state .or cs => cs.all isCube
     | _ => false)

/-- A well-shaped `dnf` result with all atoms normalized. -/
def Good (r : Expr) : Bool :=
  isDNFOr r && atomsNorm r

/-! #### Bridging lemmas between the mutual helpers and list combinators -/

theorem evalAll_eq (m : Nat → Int) (l : List Expr) :
    evalAll m l = l.all (Expr.eval m) := by
  induction l with
  | nil => rfl
  | cons e es ih => simp [evalAll, ih]

theorem evalAny_eq (m : Nat → Int) (l : List Expr) :
    evalAny m l = l.any (Expr.eval m) := by
  induction l with
  | nil => rfl
  | cons e es ih => simp [evalAny, ih]

theorem wfAll_eq (l : List Expr) : wfAll l = l.all Expr.wf := by
  induction l with
  | nil => rfl
  | cons e es ih => simp [wfAll, ih]

theorem atomsNormAll_eq (l : List Expr) : atomsNormAll l = l.all atomsNorm := by
  induction l with
  | nil => rfl
  | cons e es ih => simp [atomsNormAll, ih]

theorem notFreeAll_eq (l : List Expr) : notFreeAll l = l.all notFree := by
  induction l with
  | nil => rfl
  | cons e es ih => simp [notFreeAll, ih]

theorem sizeE_pos (e : Expr) : 1 ≤ sizeE e := by
  cases e with
  | boolConst _ => exact le_refl 1
  | atom _ _ _ => exact le_refl 1
  | state _ _ => simp [sizeE]

theorem sizeE_le_sizeL {e : Expr} {l : List Expr} (h : e ∈ l) :
    sizeE e ≤ sizeL l := by
  induction l with
  | nil => simp at h
  | cons x xs ih =>
      rcases List.mem_cons.mp h with h | h
      · subst h
        simp [sizeL]
      · have := ih h
        simp only [sizeL]
        omega

theorem sizeE_lt_of_mem {e : Expr} {op : BoolOp} {l : List Expr} (h : e ∈ l) :
    sizeE e < sizeE (.state op l) := by
  have := sizeE_le_sizeL h
  simp only [sizeE]
  omega

/-- `dnfList` succeeds pointwise: the fuelled analogue of the list
comprehension. -/
theorem dnfList_forall {f : Nat} {b : Bool} {l : List Expr}
    (Φ : Expr → Expr → Prop)
    (h : ∀ a ∈ l, ∃ r, dnfRec f b a = some r ∧ Φ a r) :
    ∃ rs, dnfList f b l = some rs ∧ List.Forall₂ Φ l rs := by
  induction l with
  | nil => exact ⟨[], by simp [dnfList], List.Forall₂.nil⟩
  | cons e es ih =>
      obtain ⟨r, hr, hΦ⟩ := h e (List.mem_cons_self e es)
      obtain ⟨rs, hrs, hΦs⟩ := ih (fun a ha => h a (List.mem_cons_of_mem _ ha))
      refine ⟨r :: rs, ?_, List.Forall₂.cons hΦ hΦs⟩
      cases f with
      | zero => simp [dnfRec] at hr
      | succ f' =>
          simp only [dnfList, hr, hrs]

theorem dnfList_of_pointwise {f : Nat} {b : Bool} {l : List Expr}
    (h : ∀ a ∈ l, dnfRec f b a = some a) :
    dnfList f b l = some l := by
  induction l with
  | nil => simp [dnfList]
  | cons e es ih =>
      cases f with
      | zero =>
          have := h e (List.mem_cons_self e es)
          simp [dnfRec] at this
      | succ f' =>
          simp only [dnfList, h e (List.mem_cons_self e es),
            ih (fun a ha => h a (List.mem_cons_of_mem _ ha))]

theorem forall₂_mem_right {Φ : Expr → Expr → Prop} {l rs : List Expr}
    (h : List.Forall₂ Φ l rs) : ∀ r ∈ rs, ∃ a ∈ l, Φ a r := by
  induction h with
  | nil => simp
  | cons hx hxs ih =>
      intro r hr
      rcases List.mem_cons.mp hr with hr | hr
      · subst hr
        exact ⟨_, List.mem_cons_self _ _, hx⟩
      · obtain ⟨a, ha, hΦ⟩ := ih r hr
        exact ⟨a, List.mem_cons_of_mem _ ha, hΦ⟩

theorem forall₂_all_congr {l rs : List Expr} {p q : Expr → Bool}
    (h : List.Forall₂ (fun a r => q r = p a) l rs) : rs.all q = l.all p := by
  induction h with
  | nil => rfl
  | cons hx hxs ih => simp [hx, ih]

theorem forall₂_any_congr {l rs : List Expr} {p q : Expr → Bool}
    (h : List.Forall₂ (fun a r => q r = p a) l rs) : rs.any q = l.any p := by
  induction h with
  | nil => rfl
  | cons hx hxs ih => simp [hx, ih]

theorem any_bnot (l : List Expr) (p : Expr → Bool) :
    l.any (fun a => !(p a)) = !(l.all p) := by
  induction l with
  | nil => rfl
  | cons e es ih => simp [ih]

theorem all_bnot (l : List Expr) (p : Expr → Bool) :
    l.all (fun a => !(p a)) = !(l.any p) := by
  induction l with
  | nil => rfl
  | cons e es ih => simp [ih]

/-! #### Evaluation of comparison operators under negation/commutation -/

theorem compEval_negComp (op : CompOp) (x y : Int) :
    compEval (negComp op) x y = !(compEval op x y) := by
  cases op <;> simp only [compEval, negComp, ← decide_not] <;>
    exact decide_eq_decide.mpr (by omega)

theorem compEval_commComp (op : CompOp) (x y : Int) :
    compEval (commComp op) y x = compEval op x y := by
  cases op <;> simp only [compEval, commComp] <;>
    exact decide_eq_decide.mpr (by omega)

theorem not_isIntConst_of_isTokenCount {s : SimpleExpr}
    (h : s.isTokenCount = true) : s.isIntConst = false := by
  cases s with
  | tokenCount _ _ => rfl
  | intConst _ => simp [SimpleExpr.isTokenCount] at h

/-! #### Identity of `dnf` on already-normalized results -/

/-- Result of `Atom.dnf` without negation propagation. -/
def atomDnfResult (l : SimpleExpr) (op : CompOp) (r : SimpleExpr) : Expr :=
  if l.isIntConst && r.isTokenCount then .atom r (commComp op) l
  else .atom l op r

theorem dnfRec_atom_false (f : Nat) (l : SimpleExpr) (op : CompOp)
    (r : SimpleExpr) :
    dnfRec (f + 2) false (.atom l op r) = some (atomDnfResult l op r) := by
  cases hc : (l.isIntConst && r.isTokenCount) with
  | false => simp [dnfRec, atomDnfResult, hc]
  | true =>
      have hr : r.isTokenCount = true := (Bool.and_eq_true_iff.mp hc).2
      have hri : r.isIntConst = false := not_isIntConst_of_isTokenCount hr
      simp [dnfRec, atomDnfResult, hc, hri]

theorem atomDnfResult_norm (l : SimpleExpr) (op : CompOp) (r : SimpleExpr) :
    atomsNorm (atomDnfResult l op r) = true ∧ isLit (atomDnfResult l op r) = true := by
  cases hc : (l.isIntConst && r.isTokenCount) with
  | false => simp [atomDnfResult, hc, atomsNorm, isLit]
  | true =>
      have hr : r.isTokenCount = true := (Bool.and_eq_true_iff.mp hc).2
      have hri : r.isIntConst = false := not_isIntConst_of_isTokenCount hr
      simp [atomDnfResult, hc, atomsNorm, isLit, hri]

theorem atomDnfResult_eval (m : Nat → Int) (l : SimpleExpr) (op : CompOp)
    (r : SimpleExpr) :
    Expr.eval m (atomDnfResult l op r) = Expr.eval m (.atom l op r) := by
  cases hc : (l.isIntConst && r.isTokenCount) with
  | false => simp [atomDnfResult, hc]
  | true =>
      simp only [atomDnfResult, hc, if_pos]
      simp only [Expr.eval]
      exact compEval_commComp op (l.eval m) (r.eval m)

theorem dnfRec_lit_id (f : Nat) {l : Expr} (hl : isLit l = true)
    (hn : atomsNorm l = true) : dnfRec (f + 1) false l = some l := by
  cases l with
  | boolConst b => simp [dnfRec]
  | atom a op b =>
      have hc : (a.isIntConst && b.isTokenCount) = false := by
        cases h2 : (a.isIntConst && b.isTokenCount)
        · rfl
        · simp [atomsNorm, h2] at hn
      simp [dnfRec, hc]
  | state _ _ => simp [isLit] at hl

/-- What one `dnf` pass returns on an already-normal cube: a bare `and`
cube is re-wrapped into a singleton `or`, anything else is returned
unchanged. -/
def cubeExpand (c : Expr) : Expr :=
  match c with
  | .state .and _ => .state .or [c]
  | _ => c

theorem cubesOfSF_of_lit {c : Expr} (h : isLit c = true) : cubesOfSF c = [c] := by
  cases c with
  | boolConst _ => rfl
  | atom _ _ _ => rfl
  | state _ _ => simp [isLit] at h

theorem flattenCube_of_lit {c : Expr} (h : isLit c = true) :
    flattenCube c = [c] := by
  cases c with
  | boolConst _ => rfl
  | atom _ _ _ => rfl
  | state _ _ => simp [isLit] at h

theorem listProd_map_singleton (l : List Expr) :
    listProd (l.map (fun x => [x])) = [l] := by
  induction l with
  | nil => rfl
  | cons x xs ih => simp [listProd, ih]

theorem flatMap_flattenCube_of_lits {l : List Expr}
    (h : ∀ c ∈ l, isLit c = true) : l.flatMap flattenCube = l := by
  induction l with
  | nil => rfl
  | cons c cs ih =>
      simp only [List.flatMap_cons]
      rw [flattenCube_of_lit (h c (List.mem_cons_self c cs)),
        ih (fun x hx => h x (List.mem_cons_of_mem _ hx))]
      rfl

theorem dnfList_map {f : Nat} {b : Bool} {l : List Expr} {g : Expr → Expr}
    (h : ∀ a ∈ l, dnfRec f b a = some (g a)) :
    dnfList f b l = some (l.map g) := by
  induction l with
  | nil => simp [dnfList]
  | cons e es ih =>
      cases f with
      | zero =>
          have := h e (List.mem_cons_self e es)
          simp [dnfRec] at this
      | succ f' =>
          simp only [dnfList, h e (List.mem_cons_self e es),
            ih (fun a ha => h a (List.mem_cons_of_mem _ ha)), List.map_cons]

theorem isCube_cases {c : Expr} (h : isCube c = true) :
    isLit c = true ∨ ∃ lits, c = .state .and lits ∧ ∀ x ∈ lits, isLit x = true := by
  cases c with
  | boolConst _ => exact Or.inl rfl
  | atom _ _ _ => exact Or.inl rfl
  | state op ops =>
      cases op with
      | and =>
          right
          refine ⟨ops, rfl, ?_⟩
          simp only [isCube, isLit, Bool.false_or] at h
          exact fun x hx => List.all_eq_true.mp h x hx
      | or => simp [isCube, isLit] at h
      | not => simp [isCube, isLit] at h

theorem isDNFOr_cases {r : Expr} (h : isDNFOr r = true) :
    isLit r = true ∨ ∃ cs, r = .state .or cs ∧ ∀ c ∈ cs, isCube c = true := by
  cases r with
  | boolConst _ => exact Or.inl rfl
  | atom _ _ _ => exact Or.inl rfl
  | state op ops =>
      cases op with
      | or =>
          right
          refine ⟨ops, rfl, ?_⟩
          simp only [isDNFOr, isLit, Bool.false_or] at h
          exact fun x hx => List.all_eq_true.mp h x hx
      | and => simp [isDNFOr, isLit] at h
      | not => simp [isDNFOr, isLit] at h

theorem atomsNorm_state_mem {op : BoolOp} {ops : List Expr}
    (h : atomsNorm (.state op ops) = true) : ∀ x ∈ ops, atomsNorm x = true := by
  simp only [atomsNorm, atomsNormAll_eq] at h
  exact fun x hx => List.all_eq_true.mp h x hx

theorem dnfRec_cube_expand (f : Nat) {c : Expr} (hc : isCube c = true)
    (hn : atomsNorm c = true) :
    dnfRec (f + 2) false c = some (cubeExpand c) := by
  rcases isCube_cases hc with hl | ⟨lits, rfl, hlits⟩
  · have : cubeExpand c = c := by
      rcases isCube_cases hc with hl' | ⟨lits, rfl, -⟩
      · cases c with
        | boolConst _ => rfl
        | atom _ _ _ => rfl
        | state _ _ => simp [isLit] at hl'
      · simp [isLit] at hl
    rw [this]
    exact dnfRec_lit_id (f + 1) hl hn
  · have hnl : ∀ x ∈ lits, atomsNorm x = true := atomsNorm_state_mem hn
    have hlist : dnfList (f + 1) false lits = some lits := by
      have := dnfList_map (g := id)
        (f := f + 1) (b := false) (l := lits)
        (fun a ha => dnfRec_lit_id f (hlits a ha) (hnl a ha))
      simpa using this
    have hmap : lits.map cubesOfSF = lits.map (fun x => [x]) :=
      List.map_congr_left (fun x hx => cubesOfSF_of_lit (hlits x hx))
    simp only [dnfRec, hlist, cubeExpand]
    rw [hmap, listProd_map_singleton]
    simp only [List.map_cons, List.map_nil]
    rw [flatMap_flattenCube_of_lits hlits]
    simp

theorem Good_parts {r : Expr} (h : Good r = true) :
    isDNFOr r = true ∧ atomsNorm r = true := by
  simpa [Good] using h

theorem cubesOfSF_cubeExpand {c : Expr} (hc : isCube c = true) :
    cubesOfSF (cubeExpand c) = [c] := by
  rcases isCube_cases hc with hl | ⟨lits, rfl, -⟩
  · rw [show cubeExpand c = c by
      cases c with
      | boolConst _ => rfl
      | atom _ _ _ => rfl
      | state _ _ => simp [isLit] at hl]
    exact cubesOfSF_of_lit hl
  · rfl

theorem flatMap_cubesOfSF_map_cubeExpand {l : List Expr}
    (h : ∀ c ∈ l, isCube c = true) :
    (l.map cubeExpand).flatMap cubesOfSF = l := by
  induction l with
  | nil => rfl
  | cons c cs ih =>
      simp only [List.map_cons, List.flatMap_cons]
      rw [cubesOfSF_cubeExpand (h c (List.mem_cons_self c cs)),
        ih (fun x hx => h x (List.mem_cons_of_mem _ hx))]
      rfl

theorem dnfRec_good_id (f : Nat) {r : Expr} (hg : Good r = true) :
    dnfRec (f + 3) false r = some r := by
  obtain ⟨hshape, hnorm⟩ := Good_parts hg
  rcases isDNFOr_cases hshape with hl | ⟨cs, rfl, hcs⟩
  · exact dnfRec_lit_id (f + 2) hl hnorm
  · have hncs : ∀ x ∈ cs, atomsNorm x = true := atomsNorm_state_mem hnorm
    have hlist : dnfList (f + 2) false cs = some (cs.map cubeExpand) :=
      dnfList_map (fun a ha => dnfRec_cube_expand f (hcs a ha) (hncs a ha))
    simp only [dnfRec, hlist]
    rw [flatMap_cubesOfSF_map_cubeExpand hcs]
    simp

/-- The `or`-flattening step of `StateFormula.dnf` (case `or`, no
negation propagation), applied to a list of already-normal results. -/
theorem dnfRec_or_good (f : Nat) {rs : List Expr}
    (h : ∀ r ∈ rs, Good r = true) :
    dnfRec (f + 4) false (.state .or rs) =
      some (.state .or (rs.flatMap cubesOfSF)) := by
  have hlist : dnfList (f + 3) false rs = some rs := by
    have := dnfList_map (g := id) (f := f + 3) (b := false) (l := rs)
      (fun a ha => dnfRec_good_id f (h a ha))
    simpa using this
  simp [dnfRec, hlist]

/-- The clause assembly of the `and` case of `StateFormula.dnf` (no
negation propagation): Cartesian product of the cube lists, each
combination flattened into one `and` clause. -/
def andAssemble (rs : List Expr) : Expr :=
  .state .or ((listProd (rs.map cubesOfSF)).map
    (fun combo => .state .and (combo.flatMap flattenCube)))

theorem dnfRec_and_good (f : Nat) {rs : List Expr}
    (h : ∀ r ∈ rs, Good r = true) :
    dnfRec (f + 4) false (.state .and rs) = some (andAssemble rs) := by
  have hlist : dnfList (f + 3) false rs = some rs := by
    have := dnfList_map (g := id) (f := f + 3) (b := false) (l := rs)
      (fun a ha => dnfRec_good_id f (h a ha))
    simpa using this
  simp [dnfRec, hlist, andAssemble]

/-! #### Semantics of the assembled DNF shapes -/

theorem flattenCube_all_eval (m : Nat → Int) (c : Expr) :
    (flattenCube c).all (Expr.eval m) = Expr.eval m c := by
  cases c with
  | boolConst b => simp [flattenCube]
  | atom _ _ _ => simp [flattenCube]
  | state op ops =>
      cases op with
      | and => simp [flattenCube, Expr.eval, evalAll_eq]
      | or => simp [flattenCube]
      | not => simp [flattenCube]

theorem flatMap_flattenCube_all_eval (m : Nat → Int) (combo : List Expr) :
    (combo.flatMap flattenCube).all (Expr.eval m) = combo.all (Expr.eval m) := by
  induction combo with
  | nil => rfl
  | cons c cs ih =>
      simp only [List.flatMap_cons, List.all_append, List.all_cons, ih,
        flattenCube_all_eval]

theorem any_and_const {α : Type} (l : List α) (b : Bool) (f : α → Bool) :
    l.any (fun x => b && f x) = (b && l.any f) := by
  cases b <;> simp

theorem any_const_and {α : Type} (l : List α) (b : Bool) (f : α → Bool) :
    l.any (fun x => f x && b) = (l.any f && b) := by
  cases b <;> simp

theorem any_map_eq {α β : Type} (l : List α) (f : α → β) (p : β → Bool) :
    (l.map f).any p = l.any (fun x => p (f x)) := by
  induction l with
  | nil => rfl
  | cons x xs ih => simp [ih]

theorem all_map_eq {α β : Type} (l : List α) (f : α → β) (p : β → Bool) :
    (l.map f).all p = l.all (fun x => p (f x)) := by
  induction l with
  | nil => rfl
  | cons x xs ih => simp [ih]

theorem any_congr_mem {α : Type} {l : List α} {f g : α → Bool}
    (h : ∀ x ∈ l, f x = g x) : l.any f = l.any g := by
  induction l with
  | nil => rfl
  | cons x xs ih =>
      simp only [List.any_cons, h x (List.mem_cons_self x xs),
        ih (fun y hy => h y (List.mem_cons_of_mem _ hy))]

theorem any_flatMap_eq {α β : Type} (l : List α) (f : α → List β)
    (p : β → Bool) :
    (l.flatMap f).any p = l.any (fun x => (f x).any p) := by
  induction l with
  | nil => rfl
  | cons x xs ih => simp [List.any_append, ih]

theorem listProd_any_all (ls : List (List Expr)) (p : Expr → Bool) :
    (listProd ls).any (fun combo => combo.all p) = ls.all (fun l => l.any p) := by
  induction ls with
  | nil => simp [listProd]
  | cons l ls ih =>
      rw [show listProd (l :: ls) =
        l.flatMap (fun x => (listProd ls).map (fun c => x :: c)) from rfl,
        any_flatMap_eq]
      have hx : ∀ x ∈ l, (((listProd ls).map (fun c => x :: c)).any
          (fun combo => combo.all p)) = (p x && ls.all (fun t => t.any p)) := by
        intro x _
        rw [any_map_eq]
        simp only [List.all_cons]
        rw [any_and_const, ih]
      rw [any_congr_mem hx, any_const_and]
      simp

theorem cubesOfSF_any_eval (m : Nat → Int) {r : Expr}
    (h : isDNFOr r = true) :
    (cubesOfSF r).any (Expr.eval m) = Expr.eval m r := by
  rcases isDNFOr_cases h with hl | ⟨cs, rfl, -⟩
  · rw [cubesOfSF_of_lit hl]
    simp
  · simp [cubesOfSF, Expr.eval, evalAny_eq]

theorem flatMap_cubesOfSF_any_eval (m : Nat → Int) {rs : List Expr}
    (h : ∀ r ∈ rs, isDNFOr r = true) :
    (rs.flatMap cubesOfSF).any (Expr.eval m) = rs.any (Expr.eval m) := by
  induction rs with
  | nil => rfl
  | cons r rest ih =>
      simp only [List.flatMap_cons, List.any_append, List.any_cons]
      rw [cubesOfSF_any_eval m (h r (List.mem_cons_self r rest)),
        ih (fun x hx => h x (List.mem_cons_of_mem _ hx))]

theorem all_congr_mem {α : Type} {l : List α} {f g : α → Bool}
    (h : ∀ x ∈ l, f x = g x) : l.all f = l.all g := by
  induction l with
  | nil => rfl
  | cons x xs ih =>
      simp only [List.all_cons, h x (List.mem_cons_self x xs),
        ih (fun y hy => h y (List.mem_cons_of_mem _ hy))]

theorem andAssemble_eval (m : Nat → Int) {rs : List Expr}
    (h : ∀ r ∈ rs, isDNFOr r = true) :
    Expr.eval m (andAssemble rs) = rs.all (Expr.eval m) := by
  rw [show Expr.eval m (andAssemble rs) =
    evalAny m ((listProd (rs.map cubesOfSF)).map
      (fun combo => .state .and (combo.flatMap flattenCube))) from rfl,
    evalAny_eq, any_map_eq]
  have h1 : ∀ combo ∈ listProd (rs.map cubesOfSF),
      Expr.eval m (.state .and (combo.flatMap flattenCube)) =
      combo.all (Expr.eval m) := by
    intro combo _
    rw [show Expr.eval m (.state .and (combo.flatMap flattenCube)) =
      evalAll m (combo.flatMap flattenCube) from rfl, evalAll_eq,
      flatMap_flattenCube_all_eval]
  rw [any_congr_mem h1, listProd_any_all, all_map_eq]
  apply all_congr_mem
  intro r hr
  exact cubesOfSF_any_eval m (h r hr)

/-! #### Shape preservation of the assembled DNF -/

theorem isCube_of_isLit {c : Expr} (h : isLit c = true) : isCube c = true := by
  simp [isCube, h]

theorem mem_cubesOfSF_good {x r : Expr} (hg : Good r = true)
    (hx : x ∈ cubesOfSF r) : isCube x = true ∧ atomsNorm x = true := by
  obtain ⟨hshape, hnorm⟩ := Good_parts hg
  rcases isDNFOr_cases hshape with hl | ⟨cs, rfl, hcs⟩
  · rw [cubesOfSF_of_lit hl] at hx
    rcases List.mem_singleton.mp hx with rfl
    exact ⟨isCube_of_isLit hl, hnorm⟩
  · simp only [cubesOfSF] at hx
    exact ⟨hcs x hx, atomsNorm_state_mem hnorm x hx⟩

theorem or_flatten_good {rs : List Expr} (h : ∀ r ∈ rs, Good r = true) :
    Good (.state .or (rs.flatMap cubesOfSF)) = true := by
  have hmem : ∀ x ∈ rs.flatMap cubesOfSF, isCube x = true ∧ atomsNorm x = true := by
    intro x hx
    obtain ⟨r, hr, hxr⟩ := List.mem_flatMap.mp hx
    exact mem_cubesOfSF_good (h r hr) hxr
  simp only [Good, isDNFOr, isLit, Bool.false_or, atomsNorm, atomsNormAll_eq,
    Bool.and_eq_true, List.all_eq_true]
  exact ⟨fun x hx => (hmem x hx).1, fun x hx => (hmem x hx).2⟩

theorem listProd_mem {ls : List (List Expr)} {combo : List Expr}
    (h : combo ∈ listProd ls) : ∀ x ∈ combo, ∃ l ∈ ls, x ∈ l := by
  induction ls generalizing combo with
  | nil =>
      simp only [listProd, List.mem_singleton] at h
      subst h
      simp
  | cons l ls ih =>
      simp only [listProd, List.mem_flatMap, List.mem_map] at h
      obtain ⟨y, hy, c, hc, rfl⟩ := h
      intro x hx
      rcases List.mem_cons.mp hx with rfl | hx
      · exact ⟨l, List.mem_cons_self l ls, hy⟩
      · obtain ⟨l', hl', hxl'⟩ := ih hc x hx
        exact ⟨l', List.mem_cons_of_mem _ hl', hxl'⟩

theorem mem_flattenCube_cube {z x : Expr} (hc : isCube x = true)
    (hn : atomsNorm x = true) (hz : z ∈ flattenCube x) :
    isLit z = true ∧ atomsNorm z = true := by
  rcases isCube_cases hc with hl | ⟨lits, rfl, hlits⟩
  · rw [flattenCube_of_lit hl] at hz
    rcases List.mem_singleton.mp hz with rfl
    exact ⟨hl, hn⟩
  · simp only [flattenCube] at hz
    exact ⟨hlits z hz, atomsNorm_state_mem hn z hz⟩

theorem andAssemble_good {rs : List Expr} (h : ∀ r ∈ rs, Good r = true) :
    Good (andAssemble rs) = true := by
  have hclause : ∀ combo ∈ listProd (rs.map cubesOfSF),
      isCube (.state .and (combo.flatMap flattenCube)) = true ∧
      atomsNorm (.state .and (combo.flatMap flattenCube)) = true := by
    intro combo hcombo
    have hx : ∀ x ∈ combo, isCube x = true ∧ atomsNorm x = true := by
      intro x hx
      obtain ⟨l, hl, hxl⟩ := listProd_mem hcombo x hx
      obtain ⟨r, hr, rfl⟩ := List.mem_map.mp hl
      exact mem_cubesOfSF_good (h r hr) hxl
    have hz : ∀ z ∈ combo.flatMap flattenCube,
        isLit z = true ∧ atomsNorm z = true := by
      intro z hz
      obtain ⟨x, hxc, hzx⟩ := List.mem_flatMap.mp hz
      exact mem_flattenCube_cube (hx x hxc).1 (hx x hxc).2 hzx
    constructor
    · simp only [isCube, isLit, Bool.false_or, List.all_eq_true]
      exact fun z hzc => (hz z hzc).1
    · simp only [atomsNorm, atomsNormAll_eq, List.all_eq_true]
      exact fun z hzc => (hz z hzc).2
  simp only [andAssemble, Good, isDNFOr, isLit, Bool.false_or, atomsNorm,
    atomsNormAll_eq, Bool.and_eq_true, List.all_eq_true]
  constructor
  · intro x hx
    obtain ⟨combo, hcombo, rfl⟩ := List.mem_map.mp hx
    exact (hclause combo hcombo).1
  · intro x hx
    obtain ⟨combo, hcombo, rfl⟩ := List.mem_map.mp hx
    exact (hclause combo hcombo).2

/-! #### Normalization theorem for `dnf` -/

theorem wf_state_mem {op : BoolOp} {ops : List Expr} (hop : op ≠ .not)
    (h : Expr.wf (.state op ops) = true) : ∀ a ∈ ops, Expr.wf a = true := by
  cases op with
  | not => exact absurd rfl hop
  | and =>
      intro a ha
      have : wfAll ops = true := by simpa [Expr.wf] using h
      rw [wfAll_eq] at this
      exact List.all_eq_true.mp this a ha
  | or =>
      intro a ha
      have : wfAll ops = true := by simpa [Expr.wf] using h
      rw [wfAll_eq] at this
      exact List.all_eq_true.mp this a ha

theorem dnfRec_main : ∀ n : Nat, ∀ e : Expr, sizeE e ≤ n → Expr.wf e = true →
    ∀ (negProp : Bool) (f : Nat), sizeE e + 4 ≤ f →
    ∃ r, dnfRec f negProp e = some r ∧ Good r = true ∧
      ∀ m, Expr.eval m r = (if negProp then !(Expr.eval m e) else Expr.eval m e) := by
  intro n
  induction n with
  | zero =>
      intro e he
      have := sizeE_pos e
      omega
  | succ n ih =>
      intro e he hwf negProp f hf
      obtain ⟨f', rfl⟩ : ∃ f', f = f' + 1 := ⟨f - 1, by have := sizeE_pos e; omega⟩
      cases e with
      | boolConst b =>
          refine ⟨.boolConst (if negProp then !b else b), by simp [dnfRec], ?_, ?_⟩
          · cases negProp <;> simp [Good, isDNFOr, isLit, atomsNorm]
          · intro m
            cases negProp <;> simp [Expr.eval]
      | atom l op r =>
          cases negProp with
          | false =>
              obtain ⟨f2, rfl⟩ : ∃ f2, f' = f2 + 1 := ⟨f' - 1, by omega⟩
              refine ⟨atomDnfResult l op r, dnfRec_atom_false f2 l op r, ?_, ?_⟩
              · obtain ⟨h1, h2⟩ := atomDnfResult_norm l op r
                simp [Good, isDNFOr, h1, h2]
              · intro m
                simp [atomDnfResult_eval]
          | true =>
              obtain ⟨f3, rfl⟩ : ∃ f3, f' = f3 + 2 := ⟨f' - 2, by omega⟩
              refine ⟨atomDnfResult l (negComp op) r, ?_, ?_, ?_⟩
              · rw [show dnfRec (f3 + 2 + 1) true (.atom l op r) =
                  dnfRec (f3 + 2) false (.atom l (negComp op) r) by simp [dnfRec]]
                exact dnfRec_atom_false f3 l (negComp op) r
              · obtain ⟨h1, h2⟩ := atomDnfResult_norm l (negComp op) r
                simp [Good, isDNFOr, h1, h2]
              · intro m
                rw [atomDnfResult_eval]
                simp only [Expr.eval, if_true]
                exact compEval_negComp op _ _
      | state op ops =>
          cases op with
          | not =>
              cases ops with
              | nil => simp [Expr.wf] at hwf
              | cons o rest =>
                  have hwfo : Expr.wf o = true := by simpa [Expr.wf] using hwf
                  have hlt : sizeE o < sizeE (.state .not (o :: rest)) :=
                    sizeE_lt_of_mem (List.mem_cons_self o rest)
                  obtain ⟨r, hr, hg, hev⟩ :=
                    ih o (by omega) hwfo (!negProp) f' (by omega)
                  refine ⟨r, ?_, hg, ?_⟩
                  · rw [show dnfRec (f' + 1) negProp (.state .not (o :: rest)) =
                      (if negProp then dnfRec f' false o else dnfRec f' true o)
                      by simp [dnfRec]]
                    cases negProp <;> simpa using hr
                  · intro m
                    have := hev m
                    cases negProp <;>
                      simp only [Bool.not_true, Bool.not_false, if_true,
                        if_false] at this <;>
                      simp [Expr.eval, this]
          | and =>
              have hmem : ∀ a ∈ ops, sizeE a ≤ n ∧ sizeE a + 4 ≤ f' ∧
                  Expr.wf a = true := by
                intro a ha
                have hlt : sizeE a < sizeE (.state .and ops) := sizeE_lt_of_mem ha
                exact ⟨by omega, by omega,
                  wf_state_mem (by simp) hwf a ha⟩
              cases negProp with
              | false =>
                  obtain ⟨rs, hrs, hfa⟩ := dnfList_forall
                    (fun a r => Good r = true ∧
                      ∀ m, Expr.eval m r = Expr.eval m a)
                    (fun a ha => by
                      obtain ⟨h1, h2, h3⟩ := hmem a ha
                      obtain ⟨r, hr, hg, hev⟩ := ih a h1 h3 false f' h2
                      exact ⟨r, hr, hg, fun m => by simpa using hev m⟩)
                  have hgood : ∀ r ∈ rs, Good r = true := by
                    intro r hr
                    obtain ⟨a, -, hΦ⟩ := forall₂_mem_right hfa r hr
                    exact hΦ.1
                  refine ⟨andAssemble rs, ?_, andAssemble_good hgood, ?_⟩
                  · simp [dnfRec, hrs, andAssemble]
                  · intro m
                    rw [andAssemble_eval m
                      (fun r hr => (Good_parts (hgood r hr)).1)]
                    have heq : rs.all (Expr.eval m) = ops.all (Expr.eval m) :=
                      forall₂_all_congr (hfa.imp (fun _ _ hΦ => hΦ.2 m))
                    simp [Expr.eval, evalAll_eq, heq]
              | true =>
                  obtain ⟨rs, hrs, hfa⟩ := dnfList_forall
                    (fun a r => Good r = true ∧
                      ∀ m, Expr.eval m r = !(Expr.eval m a))
                    (fun a ha => by
                      obtain ⟨h1, h2, h3⟩ := hmem a ha
                      obtain ⟨r, hr, hg, hev⟩ := ih a h1 h3 true f' h2
                      exact ⟨r, hr, hg, fun m => by simpa using hev m⟩)
                  have hgood : ∀ r ∈ rs, Good r = true := by
                    intro r hr
                    obtain ⟨a, -, hΦ⟩ := forall₂_mem_right hfa r hr
                    exact hΦ.1
                  obtain ⟨f4, rfl⟩ : ∃ f4, f' = f4 + 4 :=
                    ⟨f' - 4, by have := sizeE_pos (Expr.state .and ops); omega⟩
                  refine ⟨.state .or (rs.flatMap cubesOfSF), ?_,
                    or_flatten_good hgood, ?_⟩
                  · have hstep := dnfRec_or_good f4 hgood
                    simp [dnfRec, hrs, hstep]
                  · intro m
                    rw [show Expr.eval m (.state .or (rs.flatMap cubesOfSF)) =
                      evalAny m (rs.flatMap cubesOfSF) from rfl, evalAny_eq,
                      flatMap_cubesOfSF_any_eval m
                        (fun r hr => (Good_parts (hgood r hr)).1)]
                    have heq : rs.any (Expr.eval m) =
                        ops.any (fun a => !(Expr.eval m a)) :=
                      forall₂_any_congr (hfa.imp (fun _ _ hΦ => hΦ.2 m))
                    rw [heq, any_bnot]
                    simp [Expr.eval, evalAll_eq]
          | or =>
              have hmem : ∀ a ∈ ops, sizeE a ≤ n ∧ sizeE a + 4 ≤ f' ∧
                  Expr.wf a = true := by
                intro a ha
                have hlt : sizeE a < sizeE (.state .or ops) := sizeE_lt_of_mem ha
                exact ⟨by omega, by omega,
                  wf_state_mem (by simp) hwf a ha⟩
              cases negProp with
              | false =>
                  obtain ⟨rs, hrs, hfa⟩ := dnfList_forall
                    (fun a r => Good r = true ∧
                      ∀ m, Expr.eval m r = Expr.eval m a)
                    (fun a ha => by
                      obtain ⟨h1, h2, h3⟩ := hmem a ha
                      obtain ⟨r, hr, hg, hev⟩ := ih a h1 h3 false f' h2
                      exact ⟨r, hr, hg, fun m => by simpa using hev m⟩)
                  have hgood : ∀ r ∈ rs, Good r = true := by
                    intro r hr
                    obtain ⟨a, -, hΦ⟩ := forall₂_mem_right hfa r hr
                    exact hΦ.1
                  refine ⟨.state .or (rs.flatMap cubesOfSF), ?_,
                    or_flatten_good hgood, ?_⟩
                  · simp [dnfRec, hrs]
                  · intro m
                    rw [show Expr.eval m (.state .or (rs.flatMap cubesOfSF)) =
                      evalAny m (rs.flatMap cubesOfSF) from rfl, evalAny_eq,
                      flatMap_cubesOfSF_any_eval m
                        (fun r hr => (Good_parts (hgood r hr)).1)]
                    have heq : rs.any (Expr.eval m) = ops.any (Expr.eval m) :=
                      forall₂_any_congr (hfa.imp (fun _ _ hΦ => hΦ.2 m))
                    simp [Expr.eval, evalAny_eq, heq]
              | true =>
                  obtain ⟨rs, hrs, hfa⟩ := dnfList_forall
                    (fun a r => Good r = true ∧
                      ∀ m, Expr.eval m r = !(Expr.eval m a))
                    (fun a ha => by
                      obtain ⟨h1, h2, h3⟩ := hmem a ha
                      obtain ⟨r, hr, hg, hev⟩ := ih a h1 h3 true f' h2
                      exact ⟨r, hr, hg, fun m => by simpa using hev m⟩)
                  have hgood : ∀ r ∈ rs, Good r = true := by
                    intro r hr
                    obtain ⟨a, -, hΦ⟩ := forall₂_mem_right hfa r hr
                    exact hΦ.1
                  obtain ⟨f4, rfl⟩ : ∃ f4, f' = f4 + 4 :=
                    ⟨f' - 4, by have := sizeE_pos (Expr.state .or ops); omega⟩
                  refine ⟨andAssemble rs, ?_, andAssemble_good hgood, ?_⟩
                  · have hstep := dnfRec_and_good f4 hgood
                    simp [dnfRec, hrs, hstep]
                  · intro m
                    rw [andAssemble_eval m
                      (fun r hr => (Good_parts (hgood r hr)).1)]
                    have heq : rs.all (Expr.eval m) =
                        ops.all (fun a => !(Expr.eval m a)) :=
                      forall₂_all_congr (hfa.imp (fun _ _ hΦ => hΦ.2 m))
                    rw [heq, all_bnot]
                    simp [Expr.eval, evalAny_eq]

theorem isDNF_of_isDNFOr {r : Expr} (h : isDNFOr r = true) : isDNF r = true := by
  rcases isDNFOr_cases h with hl | ⟨cs, rfl, hcs⟩
  · simp [isDNF, hl]
  · simp only [isDNF, isLit, Bool.false_or, List.all_eq_true]
    exact hcs

/-- C3: for every well-formed formula over boolean constants, state
formulas (`not`/`and`/`or`) and atoms with `TokenCount`/`IntegerConstant`
operands, `dnf` terminates (fuel `sizeE e + 4` suffices) and returns a
formula in disjunctive normal form — an atom, an `and` of atoms, or an
`or` of atoms and `and`-of-atoms, with no atom keeping an
`IntegerConstant` left of a `TokenCount` — that evaluates identically to
the input at every marking. -/
theorem claim_C3_dnf (e : Expr) (hwf : Expr.wf e = true) :
    ∃ r, Expr.dnf e = some r ∧ isDNF r = true ∧ atomsNorm r = true ∧
      ∀ m, Expr.eval m r = Expr.eval m e := by
  obtain ⟨r, hr, hg, hev⟩ :=
    dnfRec_main (sizeE e) e le_rfl hwf false (sizeE e + 4) le_rfl
  obtain ⟨h1, h2⟩ := Good_parts hg
  exact ⟨r, hr, isDNF_of_isDNFOr h1, h2, fun m => by simpa using hev m⟩

theorem claim_C3_witness :
    Expr.wf (.state .not [.state .and
      [.atom (.intConst 1) .le (.tokenCount [0] 0), .boolConst true]]) = true ∧
    ∃ r, Expr.dnf (.state .not [.state .and
        [.atom (.intConst 1) .le (.tokenCount [0] 0), .boolConst true]]) = some r ∧
      isDNF r = true ∧ atomsNorm r = true ∧
      ∀ m, Expr.eval m r = Expr.eval m (.state .not [.state .and
        [.atom (.intConst 1) .le (.tokenCount [0] 0), .boolConst true]]) := by
  refine ⟨by decide, claim_C3_dnf _ (by decide)⟩

/-! ### C8: negation involution (`Atom.negation`, `StateFormula.negation`) -/

theorem negComp_invol (op : CompOp) : negComp (negComp op) = op := by
  cases op <;> rfl

theorem negList_forall {l : List Expr} (Φ : Expr → Expr → Prop)
    (h : ∀ a ∈ l, ∃ r, Expr.negation a = some r ∧ Φ a r) :
    ∃ rs, negList l = some rs ∧ List.Forall₂ Φ l rs := by
  induction l with
  | nil => exact ⟨[], rfl, List.Forall₂.nil⟩
  | cons e es ih =>
      obtain ⟨r, hr, hΦ⟩ := h e (List.mem_cons_self e es)
      obtain ⟨rs, hrs, hΦs⟩ := ih (fun a ha => h a (List.mem_cons_of_mem _ ha))
      exact ⟨r :: rs, by simp [negList, hr, hrs], List.Forall₂.cons hΦ hΦs⟩

theorem negList_back {ops rs : List Expr}
    (h : List.Forall₂ (fun a r => Expr.negation r = some a) ops rs) :
    negList rs = some ops := by
  induction h with
  | nil => rfl
  | cons hx hxs ih => simp [negList, hx, ih]

theorem negation_invol_aux : ∀ n : Nat, ∀ e : Expr, sizeE e ≤ n →
    notFree e = true →
    ∃ e', Expr.negation e = some e' ∧ notFree e' = true ∧
      Expr.negation e' = some e := by
  intro n
  induction n with
  | zero =>
      intro e he
      have := sizeE_pos e
      omega
  | succ n ih =>
      intro e he hnf
      cases e with
      | boolConst b =>
          exact ⟨.boolConst !b, rfl, rfl, by simp [Expr.negation]⟩
      | atom l op r =>
          refine ⟨.atom l (negComp op) r, rfl, rfl, ?_⟩
          simp [Expr.negation, negComp_invol]
      | state op ops =>
          cases op with
          | not => simp [notFree] at hnf
          | and =>
              have hops : ∀ a ∈ ops, notFree a = true := by
                have : notFreeAll ops = true := by simpa [notFree] using hnf
                rw [notFreeAll_eq] at this
                exact fun a ha => List.all_eq_true.mp this a ha
              obtain ⟨rs, hrs, hfa⟩ := negList_forall
                (fun a r => notFree r = true ∧ Expr.negation r = some a)
                (fun a ha => by
                  have hlt : sizeE a < sizeE (.state .and ops) :=
                    sizeE_lt_of_mem ha
                  obtain ⟨r, h1, h2, h3⟩ := ih a (by omega) (hops a ha)
                  exact ⟨r, h1, h2, h3⟩)
              refine ⟨.state .or rs, by simp [Expr.negation, negBool, hrs], ?_, ?_⟩
              · have : ∀ r ∈ rs, notFree r = true := by
                  intro r hr
                  obtain ⟨a, -, hΦ⟩ := forall₂_mem_right hfa r hr
                  exact hΦ.1
                simp only [notFree, notFreeAll_eq, List.all_eq_true]
                exact this
              · have hback : negList rs = some ops :=
                  negList_back (hfa.imp (fun _ _ hΦ => hΦ.2))
                simp [Expr.negation, negBool, hback]
          | or =>
              have hops : ∀ a ∈ ops, notFree a = true := by
                have : notFreeAll ops = true := by simpa [notFree] using hnf
                rw [notFreeAll_eq] at this
                exact fun a ha => List.all_eq_true.mp this a ha
              obtain ⟨rs, hrs, hfa⟩ := negList_forall
                (fun a r => notFree r = true ∧ Expr.negation r = some a)
                (fun a ha => by
                  have hlt : sizeE a < sizeE (.state .or ops) :=
                    sizeE_lt_of_mem ha
                  obtain ⟨r, h1, h2, h3⟩ := ih a (by omega) (hops a ha)
                  exact ⟨r, h1, h2, h3⟩)
              refine ⟨.state .and rs, by simp [Expr.negation, negBool, hrs], ?_, ?_⟩
              · have : ∀ r ∈ rs, notFree r = true := by
                  intro r hr
                  obtain ⟨a, -, hΦ⟩ := forall₂_mem_right hfa r hr
                  exact hΦ.1
                simp only [notFree, notFreeAll_eq, List.all_eq_true]
                exact this
              · have hback : negList rs = some ops :=
                  negList_back (hfa.imp (fun _ _ hΦ => hΦ.2))
                simp [Expr.negation, negBool, hback]

/-- C8 (amended): the comparison-operator negation map is an involution,
and on `not`-free formulas (state formulas over `and`/`or` with
atom/constant leaves) `negation` is defined and is an involution — even
up to syntactic identity, hence a fortiori modulo commutation
normalization.  (On formulas containing a `not` state formula,
`StateFormula.negation` raises `KeyError`, see the counterexample.) -/
theorem claim_C8_negation_involution :
    (∀ op, negComp (negComp op) = op) ∧
    (∀ e, notFree e = true → (Expr.negation e).bind Expr.negation = some e) := by
  refine ⟨negComp_invol, fun e hnf => ?_⟩
  obtain ⟨e', h1, -, h3⟩ := negation_invol_aux (sizeE e) e le_rfl hnf
  rw [h1]
  exact h3

/-- C8 counterexample: `negation` of a `not` state formula looks up
`'not'` in `NEGATION_BOOLEAN_OPERATORS`, which only maps `'and'` and
`'or'`, and raises `KeyError`; so `negation(negation(φ))` is undefined
(not equal to φ) for φ = `not (p ≤ 1)`. -/
theorem claim_C8_counterexample :
    Expr.negation (.state .not [.atom (.tokenCount [0] 0) .le (.intConst 1)]) =
      none ∧
    ¬((Expr.negation
        (.state .not [.atom (.tokenCount [0] 0) .le (.intConst 1)])).bind
          Expr.negation =
      some (.state .not [.atom (.tokenCount [0] 0) .le (.intConst 1)])) := by
  refine ⟨rfl, ?_⟩
  intro h
  rw [show Expr.negation
    (.state .not [.atom (.tokenCount [0] 0) .le (.intConst 1)]) = none
    from rfl] at h
  simp at h

theorem claim_C8_witness :
    notFree (.state .and [.atom (.tokenCount [0] 0) .le (.intConst 1),
      .boolConst false]) = true ∧
    (Expr.negation (.state .and [.atom (.tokenCount [0] 0) .le (.intConst 1),
      .boolConst false])).bind Expr.negation =
      some (.state .and [.atom (.tokenCount [0] 0) .le (.intConst 1),
        .boolConst false]) :=
  ⟨by decide, claim_C8_negation_involution.2 _ (by decide)⟩

/-! ### C10: the `deadlock` formula generator (`Formula.generate_deadlock`) -/

/-- The net model: places, transitions, initial marking
(`PetriNet`, smpt/ptnet.py). -/
structure PetriNet where
  places : List Nat
  transitions : List Transition
  m0 : Nat → Int

/-- The per-transition clause of `generate_deadlock`: a disjunction over
the transition's pre places of "the pre condition is unmet"
(`Σp < pre(p)`, or `Σp ≥ |pre(p)|` for an inhibitor); an empty `pre`
yields `BooleanConstant(False)`, a single inequality is kept bare. -/
def deadlockClause (t : Transition) : Expr :=
  match t.pre.map (fun pw =>
    if 0 < pw.2 then Expr.atom (.tokenCount [pw.1] 0) .lt (.intConst pw.2)
    else Expr.atom (.tokenCount [pw.1] 0) .ge (.intConst (-pw.2))) with
  | [] => .boolConst false
  | [a] => a
  | ineqs => .state .or ineqs

/-- `generate_deadlock`: R is the conjunction of the per-transition
clauses. -/
def generateDeadlockR (net : PetriNet) : Expr :=
  .state .and (net.transitions.map deadlockClause)

/-- `P = StateFormula([R], 'not')`. -/
def generateDeadlockP (net : PetriNet) : Expr :=
  .state .not [generateDeadlockR net]

/-- C10: if the net has a source transition (empty `pre` map, always
enabled), `generate_deadlock` appends `BooleanConstant(False)` to the
conjunction, so R evaluates to `False` at every marking and P to
`True`. -/
theorem claim_C10_deadlock_source_transition (net : PetriNet)
    (h : ∃ t ∈ net.transitions, t.pre = []) (m : Nat → Int) :
    (∀ t ∈ net.transitions, t.pre = [] →
      deadlockClause t = .boolConst false) ∧
    Expr.eval m (generateDeadlockR net) = false ∧
    Expr.eval m (generateDeadlockP net) = true := by
  have hcl : ∀ t : Transition, t.pre = [] →
      deadlockClause t = .boolConst false := by
    intro t hpre
    simp [deadlockClause, hpre]
  obtain ⟨t, ht, hpre⟩ := h
  have hfalse : Expr.eval m (generateDeadlockR net) = false := by
    rw [show Expr.eval m (generateDeadlockR net) =
      evalAll m (net.transitions.map deadlockClause) from rfl, evalAll_eq]
    refine Bool.eq_false_iff.mpr (fun hall => ?_)
    have := List.all_eq_true.mp hall (deadlockClause t)
      (List.mem_map.mpr ⟨t, ht, rfl⟩)
    rw [hcl t hpre] at this
    exact Bool.noConfusion this
  refine ⟨fun t _ hpre => hcl t hpre, hfalse, ?_⟩
  rw [show Expr.eval m (generateDeadlockP net) =
    !(Expr.eval m (generateDeadlockR net)) from rfl, hfalse]
  rfl

/-- A net with one place and a single source transition `tr t -> p`. -/
def exC10net : PetriNet :=
  ⟨[0], [⟨[], [(0, 1)], [], [(0, 1)], [], [(0, 1)], [0]⟩], fun _ => 0⟩

theorem claim_C10_witness :
    (∃ t ∈ exC10net.transitions, t.pre = []) ∧
    (Expr.eval (fun _ => 0) (generateDeadlockR exC10net) = false ∧
      Expr.eval (fun _ => 0) (generateDeadlockP exC10net) = true) := by
  have h : ∃ t ∈ exC10net.transitions, t.pre = [] := by decide
  have := claim_C10_deadlock_source_transition exC10net h (fun _ => 0)
  exact ⟨h, this.2.1, this.2.2⟩

/-! ### C1: soundness of the transition-relation encoding

Semantics of the SMT-LIB text emitted by `PetriNet.smtlib_declare_places`
(non-negativity), `PetriNet.smtlib_initial_marking`,
`PetriNet.smtlib_transition_relation` (with the stutter disjunct,
`eq=True`) and the final marking assertions, as predicates over an
assignment `α : order → place → ℤ` of the integer variables `p@i`. -/

/-- Firing condition of `Transition.smtlib`: for each `pre` entry
`(p, w)`: if `w > 0` then `p@k ≥ w`, else `p@k < −w` (inhibitor). -/
def transGuard (t : Transition) (M : Nat → Int) : Prop :=
  ∀ pw ∈ t.pre, (0 < pw.2 → pw.2 ≤ M pw.1) ∧ (¬0 < pw.2 → M pw.1 < -pw.2)

instance (t : Transition) (M : Nat → Int) : Decidable (transGuard t M) := by
  unfold transGuard
  infer_instance

/-- Update constraints of `Transition.smtlib`: the input-place loop (for
positive input weights, subtracting the weight, adding the output weight
when the place is also an output), the output-place loop (for places not
in `inputs` or with negative input weight), and the unconnected /
test-only places left unchanged. -/
def transUpdates (pls : List Nat) (t : Transition) (M M' : Nat → Int) : Prop :=
  (∀ pw ∈ t.inputs, 0 < pw.2 →
    (match alookup t.outputs pw.1 with
     | some o => M' pw.1 = M pw.1 + o - pw.2
     | none => M' pw.1 = M pw.1 - pw.2)) ∧
  (∀ pw ∈ t.outputs,
    (alookup t.inputs pw.1 = none ∨
      ∃ w, alookup t.inputs pw.1 = some w ∧ w < 0) →
    M' pw.1 = M pw.1 + pw.2) ∧
  (∀ p ∈ pls,
    (p ∉ t.connected ∨
      (p ∈ keysOf t.tests ∧ p ∉ keysOf t.inputs ∧ p ∉ keysOf t.outputs)) →
    M' p = M p)

/-- One disjunct of the transition relation. -/
def transSem (pls : List Nat) (t : Transition) (M M' : Nat → Int) : Prop :=
  transGuard t M ∧ transUpdates pls t M M'

/-- The stutter disjunct `∀p. p@(k+1) = p@k`. -/
def stutterRel (pls : List Nat) (M M' : Nat → Int) : Prop :=
  ∀ p ∈ pls, M' p = M p

/-- `PetriNet.smtlib_transition_relation k (eq=True)`: an `or` of the
per-transition conjuncts plus the stutter disjunct. -/
def transRel (net : PetriNet) (M M' : Nat → Int) : Prop :=
  (∃ t ∈ net.transitions, transSem net.places t M M') ∨
    stutterRel net.places M M'

/-- Satisfaction of the full BMC-style query: place declarations with
non-negativity at orders `0..k`, initial-marking assertions at order 0,
transition-relation assertions for orders `0..k−1`, and the final
assertions `p@k = mfin(p)`. -/
def encodingSem (net : PetriNet) (k : Nat) (mfin : Nat → Int)
    (α : Nat → Nat → Int) : Prop :=
  (∀ i, i ≤ k → ∀ p ∈ net.places, 0 ≤ α i p) ∧
  (∀ p ∈ net.places, α 0 p = net.m0 p) ∧
  (∀ i, i < k → transRel net (α i) (α (i + 1))) ∧
  (∀ p ∈ net.places, α k p = mfin p)

/-- Concrete firing of a transition: enabled under its `pre` vector
(inhibitors as negative weights) and yielding
`m − inputs(t) + outputs(t)`. -/
def fires (t : Transition) (M M' : Nat → Int) : Prop :=
  transGuard t M ∧
  ∀ p, M' p = M p - optD (alookup t.inputs p) + optD (alookup t.outputs p)

theorem normalized_inputs {t : Transition} (h : t.Normalized) (p : Nat) :
    alookup t.inputs p =
      (normalizeFlowsEntry (alookup t.pre p) (alookup t.post p)).inputs :=
  congrArg FlowEntry.inputs (normalized_all h p).1

theorem normalized_outputs {t : Transition} (h : t.Normalized) (p : Nat) :
    alookup t.outputs p =
      (normalizeFlowsEntry (alookup t.pre p) (alookup t.post p)).outputs :=
  congrArg FlowEntry.outputs (normalized_all h p).1

theorem guard_at {t : Transition} {M : Nat → Int} (hg : transGuard t M)
    {p : Nat} {a : Int} (ha : alookup t.pre p = some a) :
    (0 < a → a ≤ M p) ∧ (¬0 < a → M p < -a) :=
  hg (p, a) (alookup_some_mem ha)

theorem post_pos {t : Transition} (hwf : t.WF) {p : Nat} {b : Int}
    (hb : alookup t.post p = some b) : 0 < b :=
  hwf.2.2.2.2.2 (p, b) (alookup_some_mem hb)

/-- One concrete firing step keeps the marking non-negative (for a
normalized, well-formed transition). -/
theorem fires_nonneg {t : Transition} {M M' : Nat → Int}
    (hn : t.Normalized) (hwf : t.WF) (hf : fires t M M') (p : Nat)
    (hMp : 0 ≤ M p) : 0 ≤ M' p := by
  obtain ⟨hg, hupd⟩ := hf
  rw [hupd p]
  have hin := normalized_inputs hn p
  have hout := normalized_outputs hn p
  rcases hpre : alookup t.pre p with _ | a <;>
    rcases hpost : alookup t.post p with _ | b <;>
    rw [hpre, hpost] at hin hout
  · simp only [normalizeFlowsEntry] at hin hout
    rw [hin, hout]
    simpa [optD] using hMp
  · simp only [normalizeFlowsEntry] at hin hout
    rw [hin, hout]
    have hb := post_pos hwf hpost
    simp only [optD, Option.getD_some, Option.getD_none]
    omega
  · simp only [normalizeFlowsEntry] at hin hout
    rw [hin, hout]
    have hga := guard_at hg hpre
    simp only [optD, Option.getD_some, Option.getD_none]
    by_cases hapos : 0 < a
    · have := hga.1 hapos
      omega
    · omega
  · have hb := post_pos hwf hpost
    have hga := guard_at hg hpre
    simp only [normalizeFlowsEntry] at hin hout
    by_cases hab : a = b
    · rw [if_pos hab] at hin hout
      simp only at hin hout
      rw [hin, hout]
      simpa [optD] using hMp
    · by_cases hba : b < a
      · rw [if_neg hab, if_pos hba] at hin hout
        simp only at hin hout
        rw [hin, hout]
        have hapos : 0 < a := by omega
        have := hga.1 hapos
        simp only [optD, Option.getD_some, Option.getD_none]
        omega
      · rw [if_neg hab, if_neg hba] at hin hout
        simp only at hin hout
        rw [hin, hout]
        simp only [optD, Option.getD_some, Option.getD_none]
        omega

/-- A concrete firing step satisfies the emitted per-transition
conjunct. -/
theorem fires_transSem (pls : List Nat) {t : Transition} {M M' : Nat → Int}
    (hn : t.Normalized) (hwf : t.WF) (hf : fires t M M') :
    transSem pls t M M' := by
  obtain ⟨hg, hupd⟩ := hf
  refine ⟨hg, ?_, ?_, ?_⟩
  · intro pw hpw hpos
    have hl : alookup t.inputs pw.1 = some pw.2 :=
      alookup_of_mem hwf.2.2.1 hpw
    rcases normalized_lookup_disjoint hn pw.1 with hd | hd
    · rw [hd] at hl
      exact absurd hl (by simp)
    · rw [hd]
      rw [hupd pw.1, hl, hd]
      simp [optD]
  · intro pw hpw hcond
    have hl : alookup t.outputs pw.1 = some pw.2 :=
      alookup_of_mem hwf.2.2.2.1 hpw
    rcases hcond with hnone | ⟨w, hw, -⟩
    · rw [hupd pw.1, hnone, hl]
      simp [optD]
    · exfalso
      rcases normalized_lookup_disjoint hn pw.1 with hd | hd
      · rw [hd] at hw
        exact Option.noConfusion hw
      · rw [hd] at hl
        exact Option.noConfusion hl
  · intro p hp hcond
    rw [hupd p]
    rcases hcond with hnc | ⟨-, hnin, hnout⟩
    · have hconn := (normalized_all hn p).2
      have hno : ¬((alookup t.pre p).isSome ∨ (alookup t.post p).isSome) :=
        fun hx => hnc (hconn.mpr hx)
      push_neg at hno
      have hpre : alookup t.pre p = none :=
        Option.not_isSome_iff_eq_none.mp hno.1
      have hpost : alookup t.post p = none :=
        Option.not_isSome_iff_eq_none.mp hno.2
      have hin := normalized_inputs hn p
      have hout := normalized_outputs hn p
      rw [hpre, hpost] at hin hout
      simp only [normalizeFlowsEntry] at hin hout
      rw [hin, hout]
      simp [optD]
    · rw [alookup_eq_none_of_not_mem_keys hnin,
        alookup_eq_none_of_not_mem_keys hnout]
      simp [optD]

/-- C1: for every Petri net (with normalized, well-formed transitions)
and every concrete firing sequence `m₀ → m₁ → … → m_k`, the conjunction
of the place declarations with non-negativity at orders `0..k`, the
initial-marking assertions at order 0, the transition-relation
assertions for orders `0..k−1` (per-transition conjuncts plus the
stutter disjunct), and the assertions `p@k = m_k(p)`, is satisfiable
over the integers: the assignment `p@i ↦ m_i(p)` is a model. -/
theorem claim_C1_encoding_soundness (net : PetriNet) (ms : Nat → Nat → Int)
    (k : Nat)
    (hnorm : ∀ t ∈ net.transitions, t.Normalized ∧ t.WF)
    (h0 : ∀ p ∈ net.places, ms 0 p = net.m0 p)
    (h0pos : ∀ p ∈ net.places, 0 ≤ ms 0 p)
    (hfire : ∀ i, i < k →
      ∃ t ∈ net.transitions, fires t (ms i) (ms (i + 1))) :
    ∃ α : Nat → Nat → Int, encodingSem net k (ms k) α := by
  have nonneg : ∀ i, i ≤ k → ∀ p ∈ net.places, 0 ≤ ms i p := by
    intro i
    induction i with
    | zero => exact fun _ p hp => h0pos p hp
    | succ j ihj =>
        intro hik p hp
        obtain ⟨t, ht, hfj⟩ := hfire j (by omega)
        exact fires_nonneg (hnorm t ht).1 (hnorm t ht).2 hfj p
          (ihj (by omega) p hp)
  refine ⟨ms, nonneg, h0, ?_, fun p _ => rfl⟩
  intro i hi
  obtain ⟨t, ht, hfi⟩ := hfire i hi
  exact Or.inl ⟨t, ht,
    fires_transSem net.places (hnorm t ht).1 (hnorm t ht).2 hfi⟩

/-- `tr t p -> q`, as normalized by the parser. -/
def exC1t : Transition :=
  ⟨[(0, 1)], [(1, 1)], [(0, 1)], [(1, 1)], [], [(0, -1), (1, 1)], [0, 1]⟩

/-- The net `pl p (1)` / `tr t p -> q`. -/
def exC1net : PetriNet :=
  ⟨[0, 1], [exC1t], fun p => if p = 0 then 1 else 0⟩

/-- The firing sequence `{p} → {q}` of `exC1net`. -/
def exC1ms : Nat → Nat → Int := fun i p =>
  if i = 0 then (if p = 0 then 1 else 0) else (if p = 1 then 1 else 0)

theorem claim_C1_witness :
    (∀ t ∈ exC1net.transitions, t.Normalized ∧ t.WF) ∧
    (∀ i, i < 1 →
      ∃ t ∈ exC1net.transitions, fires t (exC1ms i) (exC1ms (i + 1))) ∧
    ∃ α : Nat → Nat → Int, encodingSem exC1net 1 (exC1ms 1) α := by
  have h1 : ∀ t ∈ exC1net.transitions, t.Normalized ∧ t.WF := by decide
  have h2 : ∀ p ∈ exC1net.places, exC1ms 0 p = exC1net.m0 p := by decide
  have h3 : ∀ p ∈ exC1net.places, 0 ≤ exC1ms 0 p := by decide
  have h4 : ∀ i, i < 1 →
      ∃ t ∈ exC1net.transitions, fires t (exC1ms i) (exC1ms (i + 1)) := by
    intro i hi
    have hi0 : i = 0 := by omega
    subst hi0
    refine ⟨exC1t, List.mem_singleton.mpr rfl, by decide, ?_⟩
    intro p
    match p with
    | 0 => rfl
    | 1 => rfl
    | q + 2 => rfl
  exact ⟨h1, h4,
    claim_C1_encoding_soundness exC1net exC1ms 1 h1 h2 h3 h4⟩

/-! ### C6: the k-induction engine (`KInduction`, smpt/kinduction.py)

The engine is a loop around a long-lived SMT solver; the solver's
`check_sat` answers are an oracle `sat : Nat → Bool`, indexed by the
iteration counter at the time of the check (the check performed at
counter `k` queries R at order `k`).  The solver context is observed
through the stream of solver commands (`KEvent`); the loop runs with
fuel (the Python loop runs until a check comes back unsat). -/

/-- Solver commands issued by `KInduction.prove_without_reduction`. -/
inductive KEvent where
  | declare (k : Nat)
  | assertP (k : Nat)
  | assertTrans (k : Nat)
  | assertR (k : Nat)
  | push
  | pop
  | checkSat
  deriving DecidableEq, Repr

/-- Body of one loop iteration at counter `i` (after a sat answer):
pop, declare the places at order `i+1`, assert P at order `i`, assert
the transition relation `i → i+1`, push, assert R at order `i+1`. -/
def kindBlock (i : Nat) : List KEvent :=
  [.pop, .declare (i + 1), .assertP i, .assertTrans i, .push, .assertR (i + 1)]

/-- Initialization: declare order 0, assert P at 0, declare order 1,
assert the transition relation `0 → 1`, push, assert R at order 1. -/
def kindInitTrace : List KEvent :=
  [.declare 0, .assertP 0, .declare 1, .assertTrans 0, .push, .assertR 1]

/-- The `while self.solver.check_sat()` loop, returning the emitted
command trace and the final value of `k` (`none` if the fuel runs out
while the loop is still going). -/
def kindLoop (sat : Nat → Bool) : Nat → Nat → List KEvent × Option Nat
  | 0, _ => ([], none)
  | fuel + 1, k =>
      if sat k then
        ((KEvent.checkSat :: kindBlock k) ++ (kindLoop sat fuel (k + 1)).1,
          (kindLoop sat fuel (k + 1)).2)
      else ([.checkSat], some k)

/-- `KInduction.prove_without_reduction`. -/
def proveWithoutReduction (sat : Nat → Bool) (fuel : Nat) :
    List KEvent × Option Nat :=
  (kindInitTrace ++ (kindLoop sat fuel 1).1, (kindLoop sat fuel 1).2)

/-- Observable outcome of `KInduction.prove`: the returned iteration,
what is put on the induction queue shared with BMC, and what is put on
the results queue (`[False, None]` = no counterexample, i.e. INV). -/
structure KIndOutcome where
  iteration : Option Nat
  inductionPut : Option Nat
  resultPut : Option (Bool × Option Unit)
  deriving DecidableEq, Repr

/-- `KInduction.prove`: run the prover, put the iteration on the
induction queue, and (unless the solver was aborted by a sibling) put
the non-counterexample result `[False, None]` on the results queue. -/
def kindProve (sat : Nat → Bool) (fuel : Nat) (aborted : Bool) :
    KIndOutcome :=
  match (proveWithoutReduction sat fuel).2 with
  | none => ⟨none, none, none⟩
  | some k => ⟨some k, some k, if aborted then none else some (false, none)⟩

theorem kindLoop_spec (sat : Nat → Bool) : ∀ fuel c j,
    (kindLoop sat fuel c).2 = some j →
    c ≤ j ∧ sat j = false ∧ (∀ i, c ≤ i → i < j → sat i = true) ∧
    (kindLoop sat fuel c).1 =
      (List.range' c (j - c)).flatMap
        (fun i => KEvent.checkSat :: kindBlock i) ++ [.checkSat] := by
  intro fuel
  induction fuel with
  | zero =>
      intro c j h
      simp [kindLoop] at h
  | succ f ih =>
      intro c j h
      by_cases hs : sat c = true
      · have heq : kindLoop sat (f + 1) c =
            ((KEvent.checkSat :: kindBlock c) ++ (kindLoop sat f (c + 1)).1,
              (kindLoop sat f (c + 1)).2) := by
          simp [kindLoop, hs]
        rw [heq] at h
        obtain ⟨h1, h2, h3, h4⟩ := ih (c + 1) j h
        refine ⟨by omega, h2, ?_, ?_⟩
        · intro i hi1 hi2
          by_cases hic : i = c
          · subst hic
            exact hs
          · exact h3 i (by omega) hi2
        · rw [heq]
          simp only
          rw [h4]
          have hrange : List.range' c (j - c) =
              c :: List.range' (c + 1) (j - (c + 1)) := by
            have hj : j - c = (j - (c + 1)) + 1 := by omega
            rw [hj, List.range'_succ]
          rw [hrange]
          simp
      · have heq : kindLoop sat (f + 1) c = ([.checkSat], some c) := by
          simp [kindLoop, hs]
        rw [heq] at h
        have hjc : j = c := by
          have := h
          simp at this
          omega
        subst hjc
        refine ⟨le_rfl, by simpa using hs, fun i h1 h2 => by omega, ?_⟩
        rw [heq]
        simp

/-- C6: when the satisfiability check of R at order `j` comes back
unsat, the engine returns `j`, announces the bound `j` on the induction
queue shared with BMC and (unless aborted) puts the non-counterexample
result `[False, None]` (verdict INV) on the results queue; every loop
iteration emits exactly one `pop` followed (after declaring order `i+1`,
asserting P at order `i` and the transition relation `i → i+1`) by
exactly one `push` and the new R at order `i+1`, so P is asserted at
every order `0..j−1` before the final check. -/
theorem claim_C6_kinduction (sat : Nat → Bool) (fuel : Nat) (aborted : Bool)
    (j : Nat) (h : (proveWithoutReduction sat fuel).2 = some j) :
    sat j = false ∧ 1 ≤ j ∧ (∀ i, 1 ≤ i → i < j → sat i = true) ∧
    (kindProve sat fuel aborted).inductionPut = some j ∧
    (aborted = false →
      (kindProve sat fuel aborted).resultPut = some (false, none)) ∧
    (proveWithoutReduction sat fuel).1 =
      kindInitTrace ++
        ((List.range' 1 (j - 1)).flatMap
          (fun i => KEvent.checkSat :: kindBlock i) ++ [.checkSat]) := by
  have h2 : (kindLoop sat fuel 1).2 = some j := h
  obtain ⟨ha, hb, hc, hd⟩ := kindLoop_spec sat fuel 1 j h2
  refine ⟨hb, ha, hc, ?_, ?_, ?_⟩
  · simp [kindProve, proveWithoutReduction, h2]
  · intro hab
    simp [kindProve, proveWithoutReduction, h2, hab]
  · show kindInitTrace ++ (kindLoop sat fuel 1).1 = _
    rw [hd]

theorem claim_C6_witness :
    (proveWithoutReduction (fun i => decide (i < 3)) 10).2 = some 3 ∧
    ((fun i : Nat => decide (i < 3)) 3 = false ∧ 1 ≤ 3 ∧
      (∀ i, 1 ≤ i → i < 3 → (fun i : Nat => decide (i < 3)) i = true) ∧
      (kindProve (fun i => decide (i < 3)) 10 false).inductionPut = some 3 ∧
      (false = false →
        (kindProve (fun i => decide (i < 3)) 10 false).resultPut =
          some (false, none)) ∧
      (proveWithoutReduction (fun i => decide (i < 3)) 10).1 =
        kindInitTrace ++
          ((List.range' 1 (3 - 1)).flatMap
            (fun i => KEvent.checkSat :: kindBlock i) ++ [.checkSat])) :=
  ⟨by decide, claim_C6_kinduction (fun i => decide (i < 3)) 10 false 3 (by decide)⟩

/-! ### C7: the BMC bound rendezvous -/

/-- BMC verdicts. -/
inductive BMCVerdict where
  | cex (k : Nat)
  | inv
  deriving DecidableEq, Repr

/-- Modelled from the spec: the BMC engine that consumes the k-induction
bound queue lives in `smpt/checkers/bmc.py`, which is not under `src/`
(`src/bmc.py` is an earlier variant without the bound channel); the loop
is modelled from §4.5 of the spec.  Per unroll iteration `k`: push,
assert R at order `k`, check-sat; on sat return CEX with the depth; on
unsat read the bound channel non-blocking (`chan k`: the channel content
visible at iteration `k`, written once by the k-induction worker) and
return INV when a bound `K ≤ k` has been announced; otherwise pop,
declare order `k+1`, assert the transition relation and continue. -/
def bmcRun (sat : Nat → Bool) (chan : Nat → Option Nat) :
    Nat → Nat → Option (BMCVerdict × Nat)
  | 0, _ => none
  | fuel + 1, k =>
      if sat k then some (.cex k, k)
      else
        match chan k with
        | some K => if K ≤ k then some (.inv, k) else bmcRun sat chan fuel (k + 1)
        | none => bmcRun sat chan fuel (k + 1)

/-- C7: on every unroll iteration the BMC loop reads the bound channel
non-blocking; if a bound `K` has been announced by the k-induction
worker and the current depth `k` satisfies `k ≥ K` (and the current R
check was unsat, since the sat check precedes the bound check), BMC
returns the verdict INV at depth `k`; conversely an INV verdict is only
returned at a depth `j` where the channel held some `K ≤ j` and the R
check at `j` was unsat. -/
theorem claim_C7_bmc_bound_rendezvous (sat : Nat → Bool)
    (chan : Nat → Option Nat) :
    (∀ fuel k K, chan k = some K → K ≤ k → sat k = false →
      bmcRun sat chan (fuel + 1) k = some (.inv, k)) ∧
    (∀ fuel k0 j, bmcRun sat chan fuel k0 = some (.inv, j) →
      sat j = false ∧ ∃ K, chan j = some K ∧ K ≤ j) := by
  constructor
  · intro fuel k K hchan hK hsat
    simp [bmcRun, hsat, hchan, hK]
  · intro fuel
    induction fuel with
    | zero =>
        intro k0 j h
        simp [bmcRun] at h
    | succ f ih =>
        intro k0 j h
        by_cases hs : sat k0 = true
        · simp [bmcRun, hs] at h
        · rw [show bmcRun sat chan (f + 1) k0 =
            (match chan k0 with
             | some K => if K ≤ k0 then some (.inv, k0)
               else bmcRun sat chan f (k0 + 1)
             | none => bmcRun sat chan f (k0 + 1)) by
            simp [bmcRun, hs]] at h
          rcases hchan : chan k0 with _ | K
          · rw [hchan] at h
            exact ih (k0 + 1) j h
          · rw [hchan] at h
            have h' : (if K ≤ k0 then some (BMCVerdict.inv, k0)
                else bmcRun sat chan f (k0 + 1)) =
                some (BMCVerdict.inv, j) := h
            by_cases hK : K ≤ k0
            · rw [if_pos hK] at h'
              have hj : j = k0 := by
                injection h' with h1
                injection h1
                simp_all
              subst hj
              exact ⟨by simpa using hs, K, hchan, hK⟩
            · rw [if_neg hK] at h'
              exact ih (k0 + 1) j h'

theorem claim_C7_witness :
    (fun _ : Nat => some 2) 3 = some 2 ∧ 2 ≤ 3 ∧
      (fun _ : Nat => false) 3 = false ∧
    bmcRun (fun _ => false) (fun _ => some 2) 6 3 = some (.inv, 3) :=
  ⟨rfl, by decide, rfl,
    (claim_C7_bmc_bound_rendezvous (fun _ => false) (fun _ => some 2)).1
      5 3 2 rfl (by decide) rfl⟩

/-! ### C4: the IC3 frame protocol (`IC3`, ic3.py)

`self.oars` is a Python list of frames, each frame a list of clauses.
The state machine below has exactly the operations the main loop
performs on it after `oars_initialization()`:

* `newFrame` — `self.oars.append([self.P])` at the top of the loop;
* `genClause c i` — `generate_clause`: append the clause produced by
  `sub_clause_finder` to `oars[j]` for `j = 1 .. i + 1`;
* `propagate c i` — `propagate_clauses`: copy a non-initial clause
  (`oars[i][1:]`) into `oars[i + 1]` when the solver query is unsat and
  it is not already there.

The clause type is kept abstract for the protocol invariants. -/

section IC3Frames

variable {C : Type}

/-- Frame access `oars[i]` (out-of-range reads as `[]`). -/
def frameAt : List (List C) → Nat → List C
  | [], _ => []
  | F :: _, 0 => F
  | _ :: rest, i + 1 => frameAt rest i

/-- In-place update of one frame. -/
def setFrame : List (List C) → Nat → List C → List (List C)
  | [], _, _ => []
  | _ :: rest, 0, x => x :: rest
  | F :: rest, i + 1, x => F :: setFrame rest i x

/-- `for j in range(1, i + 2): self.oars[j].append(c)`: append `c` to
every frame with index in `[1, n]` (`j` is the index of the head). -/
def addIdx (c : C) (n : Nat) : Nat → List (List C) → List (List C)
  | _, [] => []
  | j, F :: rest =>
      (if 1 ≤ j ∧ j ≤ n then F ++ [c] else F) :: addIdx c n (j + 1) rest

def addClauseUpTo (c : C) (n : Nat) (st : List (List C)) : List (List C) :=
  addIdx c n 0 st

/-- `oars_initialization()`: `F0 = [I]`, `F1 = [P]` (with `I` the
conjunction of the initial-marking equalities). -/
def oarsInit (I P : C) : List (List C) := [[I], [P]]

/-- One frames operation of the IC3 main loop. -/
inductive IC3Step (P : C) : List (List C) → List (List C) → Prop
  | newFrame (st : List (List C)) : IC3Step P st (st ++ [[P]])
  | genClause (st : List (List C)) (c : C) (i : Nat)
      (h : i + 2 ≤ st.length) : IC3Step P st (addClauseUpTo c (i + 1) st)
  | propagate (st : List (List C)) (c : C) (i : Nat) (h1 : 1 ≤ i)
      (h2 : i + 1 < st.length) (hc : c ∈ (frameAt st i).drop 1)
      (hnot : c ∉ frameAt st (i + 1)) :
      IC3Step P st (setFrame st (i + 1) (frameAt st (i + 1) ++ [c]))

/-- The frame invariants claimed for the loop, restricted to `i ≥ 1`:
`clauses(Fᵢ) ⊇ clauses(Fᵢ₊₁)` for consecutive frames above `F₀`, and
every frame `Fᵢ` with `i ≥ 1` contains the clause `P`. -/
def framesInv (P : C) (st : List (List C)) : Prop :=
  (∀ i, 1 ≤ i → i + 1 < st.length →
    ∀ c, c ∈ frameAt st (i + 1) → c ∈ frameAt st i) ∧
  (∀ i, 1 ≤ i → i < st.length → P ∈ frameAt st i)

theorem frameAt_append_lt {st : List (List C)} {x : List C} {i : Nat}
    (h : i < st.length) : frameAt (st ++ [x]) i = frameAt st i := by
  induction st generalizing i with
  | nil => simp at h
  | cons F rest ih =>
      cases i with
      | zero => rfl
      | succ j => exact ih (by simpa using h)

theorem frameAt_append_self {st : List (List C)} {x : List C} :
    frameAt (st ++ [x]) st.length = x := by
  induction st with
  | nil => rfl
  | cons F rest ih => simpa using ih

theorem frameAt_ge_length {st : List (List C)} {i : Nat}
    (h : st.length ≤ i) : frameAt st i = [] := by
  induction st generalizing i with
  | nil => cases i <;> rfl
  | cons F rest ih =>
      cases i with
      | zero => simp at h
      | succ j => exact ih (by simpa using h)

theorem addIdx_length (c : C) (n : Nat) :
    ∀ j st, (addIdx c n j st).length = (st : List (List C)).length := by
  intro j st
  induction st generalizing j with
  | nil => rfl
  | cons F rest ih => simp [addIdx, ih]

theorem frameAt_addIdx (c : C) (n : Nat) :
    ∀ (st : List (List C)) (j i : Nat),
      frameAt (addIdx c n j st) i =
        if i < st.length ∧ 1 ≤ j + i ∧ j + i ≤ n then frameAt st i ++ [c]
        else frameAt st i := by
  intro st
  induction st with
  | nil =>
      intro j i
      rw [if_neg (by simp)]
      rfl
  | cons F rest ih =>
      intro j i
      cases i with
      | zero =>
          simp only [addIdx, frameAt]
          by_cases hc1 : 1 ≤ j ∧ j ≤ n
          · rw [if_pos hc1, if_pos (by simp; omega)]
          · rw [if_neg hc1, if_neg (by simp; omega)]
      | succ k =>
          simp only [addIdx, frameAt]
          rw [ih (j + 1) k]
          by_cases hc1 : k < rest.length ∧ 1 ≤ j + 1 + k ∧ j + 1 + k ≤ n
          · rw [if_pos hc1, if_pos (by simp; omega)]
          · rw [if_neg hc1, if_neg (by simp; omega)]

theorem setFrame_length (st : List (List C)) (i : Nat) (x : List C) :
    (setFrame st i x).length = st.length := by
  induction st generalizing i with
  | nil => rfl
  | cons F rest ih =>
      cases i with
      | zero => rfl
      | succ j => simp [setFrame, ih]

theorem frameAt_setFrame_eq {st : List (List C)} {i : Nat} {x : List C}
    (h : i < st.length) : frameAt (setFrame st i x) i = x := by
  induction st generalizing i with
  | nil => simp at h
  | cons F rest ih =>
      cases i with
      | zero => rfl
      | succ j => exact ih (by simpa using h)

theorem frameAt_setFrame_ne {st : List (List C)} {i k : Nat} {x : List C}
    (h : k ≠ i) : frameAt (setFrame st i x) k = frameAt st k := by
  induction st generalizing i k with
  | nil => cases k <;> rfl
  | cons F rest ih =>
      cases i with
      | zero =>
          cases k with
          | zero => exact absurd rfl h
          | succ m => rfl
      | succ j =>
          cases k with
          | zero => rfl
          | succ m => exact ih (fun hm => h (by omega))

theorem framesInv_init (I P : C) : framesInv P (oarsInit I P) := by
  constructor
  · intro i h1 h2
    simp [oarsInit] at h2
    omega
  · intro i h1 h2
    simp [oarsInit] at h2
    have : i = 1 := by omega
    subst this
    simp [oarsInit, frameAt]

theorem framesInv_step {P : C} {st st' : List (List C)}
    (hstep : IC3Step P st st') (hinv : framesInv P st) : framesInv P st' := by
  obtain ⟨hsub, hP⟩ := hinv
  cases hstep with
  | newFrame =>
      constructor
      · intro i h1 h2 c hc
        simp only [List.length_append, List.length_singleton] at h2
        by_cases hi1 : i + 1 < st.length
        · rw [frameAt_append_lt hi1] at hc
          rw [frameAt_append_lt (by omega)]
          exact hsub i h1 hi1 c hc
        · have : i + 1 = st.length := by omega
          rw [this, frameAt_append_self] at hc
          rcases List.mem_singleton.mp hc with rfl
          rw [frameAt_append_lt (by omega)]
          exact hP i h1 (by omega)
      · intro i h1 h2
        simp only [List.length_append, List.length_singleton] at h2
        by_cases hi1 : i < st.length
        · rw [frameAt_append_lt hi1]
          exact hP i h1 hi1
        · have : i = st.length := by omega
          rw [this, frameAt_append_self]
          exact List.mem_singleton.mpr rfl
  | genClause c0 i0 hlen =>
      have hget : ∀ k, frameAt (addClauseUpTo c0 (i0 + 1) st) k =
          if k < st.length ∧ 1 ≤ k ∧ k ≤ i0 + 1 then frameAt st k ++ [c0]
          else frameAt st k := by
        intro k
        have := frameAt_addIdx c0 (i0 + 1) st 0 k
        simpa using this
      have hlen' : (addClauseUpTo c0 (i0 + 1) st).length = st.length :=
        addIdx_length c0 (i0 + 1) 0 st
      constructor
      · intro i h1 h2 c hc
        rw [hlen'] at h2
        rw [hget] at hc
        rw [hget]
        by_cases hup : i + 1 ≤ i0 + 1
        · rw [if_pos (by refine ⟨by omega, by omega, hup⟩)] at hc
          rw [if_pos (by refine ⟨by omega, h1, by omega⟩)]
          rcases List.mem_append.mp hc with hc | hc
          · exact List.mem_append.mpr (Or.inl (hsub i h1 h2 c hc))
          · exact List.mem_append.mpr (Or.inr hc)
        · rw [if_neg (by intro hx; exact hup hx.2.2)] at hc
          by_cases hup2 : i ≤ i0 + 1
          · rw [if_pos ⟨by omega, h1, hup2⟩]
            exact List.mem_append.mpr (Or.inl (hsub i h1 h2 c hc))
          · rw [if_neg (by intro hx; exact hup2 hx.2.2)]
            exact hsub i h1 h2 c hc
      · intro i h1 h2
        rw [hlen'] at h2
        rw [hget]
        by_cases hup : i ≤ i0 + 1
        · rw [if_pos ⟨h2, h1, hup⟩]
          exact List.mem_append.mpr (Or.inl (hP i h1 h2))
        · rw [if_neg (by intro hx; exact hup hx.2.2)]
          exact hP i h1 h2
  | propagate c0 i0 h1 h2 hc0 hnot =>
      have hmem : c0 ∈ frameAt st i0 := List.drop_subset 1 _ hc0
      have hlen' : (setFrame st (i0 + 1) (frameAt st (i0 + 1) ++ [c0])).length =
          st.length := setFrame_length st (i0 + 1) _
      constructor
      · intro i hi1 hi2 c hc
        rw [hlen'] at hi2
        by_cases hcase1 : i + 1 = i0 + 1
        · have hii : i = i0 := by omega
          subst hii
          rw [frameAt_setFrame_eq (by omega)] at hc
          rw [frameAt_setFrame_ne (by omega)]
          rcases List.mem_append.mp hc with hc | hc
          · exact hsub i hi1 hi2 c hc
          · rcases List.mem_singleton.mp hc with rfl
            exact hmem
        · rw [frameAt_setFrame_ne hcase1] at hc
          by_cases hcase2 : i = i0 + 1
          · subst hcase2
            rw [frameAt_setFrame_eq (by omega)]
            exact List.mem_append.mpr (Or.inl (hsub _ hi1 hi2 c hc))
          · rw [frameAt_setFrame_ne hcase2]
            exact hsub i hi1 hi2 c hc
      · intro i hi1 hi2
        rw [hlen'] at hi2
        by_cases hcase : i = i0 + 1
        · subst hcase
          rw [frameAt_setFrame_eq (by omega)]
          exact List.mem_append.mpr (Or.inl (hP _ hi1 hi2))
        · rw [frameAt_setFrame_ne hcase]
          exact hP i hi1 hi2

/-- C4 (amended): at every point of the IC3 main loop — i.e. in every
frames state reachable from `oars_initialization()` by appending a new
`[P]` frame, by `generate_clause`, or by clause propagation — the
frames satisfy `clauses(Fᵢ) ⊇ clauses(Fᵢ₊₁)` for every consecutive pair
with `i ≥ 1`, and every frame `Fᵢ` with `i ≥ 1` contains the clause P.
(The original claim also asked for the pair `(F₀, F₁)` and for every
clause of `Fᵢ` to be implied by `Fᵢ₋₁ ∧ T` at every point; both fail,
see the counterexample.) -/
theorem claim_C4_frames (C : Type) (I P : C) (st : List (List C))
    (h : Relation.ReflTransGen (IC3Step P) (oarsInit I P) st) :
    framesInv P st := by
  induction h with
  | refl => exact framesInv_init I P
  | tail _ hstep ih => exact framesInv_step hstep ih

end IC3Frames

theorem claim_C4_witness :
    framesInv 1 (oarsInit 0 1) :=
  claim_C4_frames Nat 0 1 (oarsInit 0 1) Relation.ReflTransGen.refl

/-! #### C4 counterexample

The transition relation used by ic3.py is the one emitted by the old
net module (`pn.py`: `PetriNet.smtlib_transitions_ordered` and
`Transition.smtlib_ordered`), whose transitions carry raw `input` /
`output` maps and the `pl_linked` list. -/

/-- A transition of the old net model (`Transition`, pn.py). -/
structure OldTransition where
  input : List (Nat × Int)
  output : List (Nat × Int)
  linked : List Nat
  deriving DecidableEq, Repr

/-- The old net model (`PetriNet`, pn.py). -/
structure OldPetriNet where
  places : List Nat
  transitions : List OldTransition

/-- Firing condition of `Transition.smtlib_ordered`. -/
def oldGuard (t : OldTransition) (M : Nat → Int) : Prop :=
  ∀ pw ∈ t.input, (0 < pw.2 → pw.2 ≤ M pw.1) ∧ (¬0 < pw.2 → M pw.1 < -pw.2)

instance (t : OldTransition) (M : Nat → Int) : Decidable (oldGuard t M) := by
  unfold oldGuard
  infer_instance

/-- The input-place update constraint of `Transition.smtlib_ordered`
for one entry: `p@(k+1) = p@k + output[p] − w` when the place is also an
output, else `p@(k+1) = p@k − w`. -/
def updEq (M M' : Nat → Int) (p : Nat) (w : Int) : Option Int → Prop
  | some o => M' p = M p + o - w
  | none => M' p = M p - w

instance (M M' : Nat → Int) (p : Nat) (w : Int) :
    (out : Option Int) → Decidable (updEq M M' p w out)
  | some o => inferInstanceAs (Decidable (M' p = M p + o - w))
  | none => inferInstanceAs (Decidable (M' p = M p - w))

/-- Update constraints of `Transition.smtlib_ordered`. -/
def oldUpdates (pls : List Nat) (t : OldTransition) (M M' : Nat → Int) : Prop :=
  (∀ pw ∈ t.input, 0 < pw.2 →
    updEq M M' pw.1 pw.2 (alookup t.output pw.1)) ∧
  (∀ pw ∈ t.output,
    (alookup t.input pw.1 = none ∨
      ∃ w, alookup t.input pw.1 = some w ∧ w < 0) →
    M' pw.1 = M pw.1 + pw.2) ∧
  (∀ p ∈ pls, p ∉ t.linked → M' p = M p)

instance (pls : List Nat) (t : OldTransition) (M M' : Nat → Int) :
    Decidable (oldUpdates pls t M M') := by
  unfold oldUpdates
  infer_instance

/-- `PetriNet.smtlib_transitions_ordered`: an `or` of the
per-transition conjuncts plus the stutter conjunct. -/
def oldTransRel (net : OldPetriNet) (M M' : Nat → Int) : Prop :=
  (∃ t ∈ net.transitions, oldGuard t M ∧ oldUpdates net.places t M M') ∨
    ∀ p ∈ net.places, M' p = M p

instance (net : OldPetriNet) (M M' : Nat → Int) :
    Decidable (oldTransRel net M M') := by
  unfold oldTransRel
  infer_instance

/-- Modelled from the spec: the `Clause` / `Inequality` classes of the
old `formula` module imported by ic3.py are not under `src/`; per the
spec (§3, Frames) a clause is a disjunction of atoms over place counts,
represented here by the formula AST `Expr`, and "implied by `Fᵢ₋₁ ∧ T`"
is semantic entailment over the old net encoding: every pair of markings
relations `M → M'` with `M` satisfying the frame and `(M, M')` in the
transition relation makes the clause true at `M'`. -/
def frameImplied (net : OldPetriNet) (F : List Expr) (c : Expr) : Prop :=
  ∀ M M' : Nat → Int, (∀ d ∈ F, Expr.eval M d = true) →
    oldTransRel net M M' → Expr.eval M' c = true

/-- The net `pl p (0)` / `tr t -> p` (a source transition, old model). -/
def exC4net : OldPetriNet := ⟨[0], [⟨[], [(0, 1)], [0]⟩]⟩

/-- The `F0` clause: conjunction of the initial-marking equalities. -/
def exC4I : Expr := .state .and [.atom (.tokenCount [0] 0) .eq (.intConst 0)]

/-- The property clause `P` = `p < 2` (feared set R: `p ≥ 2`). -/
def exC4P : Expr := .atom (.tokenCount [0] 0) .lt (.intConst 2)

/-- C4 counterexample, against both parts of the claim that fail on the
code.  (a) Right after `oars_initialization()` the subsumption
invariant fails for the consecutive pair `(F₀, F₁)`: `F₀ = [I]` does not
contain the clause `P` of `F₁`.  (b) The state right after the loop
appends `F₂ = [P]` (`k = 1`) is reachable in the frames protocol, and at
that point the clause `P ∈ F₂` is not implied by `F₁ ∧ T`: for the
source-transition net, `M = (p ↦ 1)` satisfies `F₁ = [P]`, the
transition fires to `M' = (p ↦ 2)`, and `P` is false at `M'`. -/
theorem claim_C4_counterexample :
    ¬(∀ c ∈ frameAt (oarsInit exC4I exC4P) 1,
        c ∈ frameAt (oarsInit exC4I exC4P) 0) ∧
    Relation.ReflTransGen (IC3Step exC4P) (oarsInit exC4I exC4P)
      (oarsInit exC4I exC4P ++ [[exC4P]]) ∧
    ¬(∀ c ∈ frameAt (oarsInit exC4I exC4P ++ [[exC4P]]) 2,
        frameImplied exC4net
          (frameAt (oarsInit exC4I exC4P ++ [[exC4P]]) 1) c) := by
  refine ⟨?_, Relation.ReflTransGen.single (IC3Step.newFrame _), ?_⟩
  · intro hall
    have h := hall exC4P (by
      show exC4P ∈ frameAt (oarsInit exC4I exC4P) 1
      exact List.mem_singleton.mpr rfl)
    rw [show frameAt (oarsInit exC4I exC4P) 0 = [exC4I] from rfl] at h
    rcases List.mem_singleton.mp h with h
    simp [exC4P, exC4I] at h
  · intro hall
    have h := hall exC4P (by
      show exC4P ∈ frameAt (oarsInit exC4I exC4P ++ [[exC4P]]) 2
      exact List.mem_singleton.mpr rfl)
    have h2 := h (fun _ => 1) (fun _ => 2) (by decide) (by decide)
    rw [show Expr.eval (fun _ => 2) exC4P = false from rfl] at h2
    exact Bool.noConfusion h2

end SMPT
